import Mathlib

/-!
Verification of the WNTR algebraic modeling layer (C++ sources under
`wntr/aml` and `wntr/sim/aml`) against its natural-language specification.

The C++ code is shallowly embedded: `double` values are modeled as `ℚ`
(the claims under study are structural / exact-arithmetic claims, never
claims about floating-point rounding), mutable containers become
functional data (lists, association lists), and operations that are
undefined behaviour in C++ (dereferencing an end iterator, reading one
past the end of a vector) are modeled by `Option`/`Except` with `none` /
`.error` marking the undefined access.
-/

namespace WntrAml

/-! ### ConditionalConstraint (wntr/aml/aml/component.cpp)

`ConditionalConstraint` holds `condition_exprs` and `exprs`
(`std::vector<std::shared_ptr<Node>>`).  Its `evaluate`, `ad`, `ad2` and
`has_ad2` only call the virtual members `evaluate`, `ad`, `ad2`,
`has_ad2` of the stored `Node`s, so the embedding is parametric in the
node type `E` together with the evaluation functions:
`ev e` models `e->evaluate()`, `g e` models the branch payload call
(`e->evaluate()`, `e->ad(n, new_eval)` or `e->ad2(n1, n2, new_eval)`),
and `hA e` models `e->has_ad2(n1, n2)` for the fixed queried pair.

Each C++ member walks `condition_exprs` and `exprs` with two iterators
advanced in lockstep; the recursions below consume the two lists in
lockstep.  Dereferencing the end iterator of `exprs` (which the C++ code
does when it runs out of list) is modeled by `List.head?` returning
`none`. -/

/-- `ConditionalConstraint::evaluate`: scan the conditions in order; on the
first condition evaluating `<= 0` return the matching branch's value;
if the conditions are exhausted (`found == false`) return the value of
the branch the expression iterator now points at. -/
def condEvaluate {E : Type} (ev : E → ℚ) : List E → List E → Option ℚ
  | [], exprs => (exprs.head?).map ev
  | c :: cs, exprs =>
      if ev c ≤ 0 then (exprs.head?).map ev
      else condEvaluate ev cs exprs.tail

/-- `ConditionalConstraint::ad`: same ladder, the selected branch supplies
`(*expr_iter)->ad(n, new_eval)` (here `ad e`). -/
def condAd {E : Type} (ev : E → ℚ) (ad : E → ℚ) : List E → List E → Option ℚ
  | [], exprs => (exprs.head?).map ad
  | c :: cs, exprs =>
      if ev c ≤ 0 then (exprs.head?).map ad
      else condAd ev ad cs exprs.tail

/-- `ConditionalConstraint::ad2`: same ladder, the selected branch supplies
`(*expr_iter)->ad2(n1, n2, new_eval)` (here `ad2 e`). -/
def condAd2 {E : Type} (ev : E → ℚ) (ad2 : E → ℚ) : List E → List E → Option ℚ
  | [], exprs => (exprs.head?).map ad2
  | c :: cs, exprs =>
      if ev c ≤ 0 then (exprs.head?).map ad2
      else condAd2 ev ad2 cs exprs.tail

/-- `ConditionalConstraint::has_ad2`: the `while` loop visits *every*
branch expression and returns `true` at the first branch whose
`has_ad2` is true.  When the loop falls off the end, the code then
dereferences the (now past-the-end) iterator once more; that
out-of-bounds access is modeled by `none`. -/
def condHasAd2 {E : Type} (hA : E → Bool) : List E → Option Bool
  | [] => none
  | e :: es => if hA e then some true else condHasAd2 hA es

/-- Index of the branch the ladder selects: the first condition whose
value is `<= 0`, else the number of conditions (the trailing branch). -/
def selectBranch {E : Type} (ev : E → ℚ) : List E → ℕ
  | [] => 0
  | c :: cs => if ev c ≤ 0 then 0 else selectBranch ev cs + 1

theorem selectBranch_le_length {E : Type} (ev : E → ℚ) (cs : List E) :
    selectBranch ev cs ≤ cs.length := by
  induction cs with
  | nil => simp [selectBranch]
  | cons c cs ih =>
      by_cases h : ev c ≤ 0
      · simp [selectBranch, h]
      · simp only [selectBranch, if_neg h, List.length_cons]
        omega

theorem condEvaluate_select {E : Type} (ev : E → ℚ) (conds exprs : List E)
    (h : exprs.length = conds.length + 1) :
    condEvaluate ev conds exprs = (exprs.get? (selectBranch ev conds)).map ev := by
  induction conds generalizing exprs with
  | nil =>
      cases exprs with
      | nil => simp at h
      | cons e es => simp [condEvaluate, selectBranch]
  | cons c cs ih =>
      by_cases hc : ev c ≤ 0
      · cases exprs with
        | nil => simp at h
        | cons e es => simp [condEvaluate, selectBranch, hc]
      · cases exprs with
        | nil => simp at h
        | cons e es =>
            have h' : es.length = cs.length + 1 := by
              simpa using h
            simp [condEvaluate, selectBranch, hc, ih es h']

theorem condAd_select {E : Type} (ev ad : E → ℚ) (conds exprs : List E)
    (h : exprs.length = conds.length + 1) :
    condAd ev ad conds exprs = (exprs.get? (selectBranch ev conds)).map ad := by
  induction conds generalizing exprs with
  | nil =>
      cases exprs with
      | nil => simp at h
      | cons e es => simp [condAd, selectBranch]
  | cons c cs ih =>
      by_cases hc : ev c ≤ 0
      · cases exprs with
        | nil => simp at h
        | cons e es => simp [condAd, selectBranch, hc]
      · cases exprs with
        | nil => simp at h
        | cons e es =>
            have h' : es.length = cs.length + 1 := by
              simpa using h
            simp [condAd, selectBranch, hc, ih es h']

theorem condAd2_select {E : Type} (ev ad2 : E → ℚ) (conds exprs : List E)
    (h : exprs.length = conds.length + 1) :
    condAd2 ev ad2 conds exprs = (exprs.get? (selectBranch ev conds)).map ad2 := by
  induction conds generalizing exprs with
  | nil =>
      cases exprs with
      | nil => simp at h
      | cons e es => simp [condAd2, selectBranch]
  | cons c cs ih =>
      by_cases hc : ev c ≤ 0
      · cases exprs with
        | nil => simp at h
        | cons e es => simp [condAd2, selectBranch, hc]
      · cases exprs with
        | nil => simp at h
        | cons e es =>
            have h' : es.length = cs.length + 1 := by
              simpa using h
            simp [condAd2, selectBranch, hc, ih es h']

/-- The selected branch index is the first `i` with `ev (conds[i]) ≤ 0`,
and equals `conds.length` when no condition fires. -/
theorem selectBranch_spec {E : Type} (ev : E → ℚ) (conds : List E) :
    (∀ j, j < selectBranch ev conds → ∀ c, conds.get? j = some c → ¬ ev c ≤ 0) ∧
      (∀ c, conds.get? (selectBranch ev conds) = some c → ev c ≤ 0) := by
  induction conds with
  | nil => simp [selectBranch]
  | cons c cs ih =>
      by_cases hc : ev c ≤ 0
      · constructor
        · intro j hj; simp [selectBranch, hc] at hj
        · intro d hd
          simp [selectBranch, hc] at hd
          rw [← hd]; exact hc
      · constructor
        · intro j hj d hd
          cases j with
          | zero =>
              simp at hd
              rw [← hd]; exact hc
          | succ j =>
              simp [selectBranch, hc] at hj
              exact ih.1 j (by omega) d (by simpa using hd)
        · intro d hd
          simp [selectBranch, hc] at hd
          exact ih.2 d (by simpa using hd)

end WntrAml

namespace WntrAml

/-- **C3.** For a `ConditionalConstraint` with `n+1` branch expressions and
`n` condition expressions, each of `evaluate`, `ad`, `ad2` evaluates the
conditions in order and returns the payload (`evaluate` / `ad` / `ad2`) of
the first branch whose condition evaluates `<= 0`, or of the trailing
branch when no condition does; the selected index is below the number of
branches, so exactly one branch supplies the result of each call. -/
theorem conditional_ladder_selects_first_nonpositive_branch
    {E : Type} (ev ad ad2 : E → ℚ) (conds exprs : List E)
    (h : exprs.length = conds.length + 1) :
    selectBranch ev conds < exprs.length ∧
      condEvaluate ev conds exprs = (exprs.get? (selectBranch ev conds)).map ev ∧
      condAd ev ad conds exprs = (exprs.get? (selectBranch ev conds)).map ad ∧
      condAd2 ev ad2 conds exprs = (exprs.get? (selectBranch ev conds)).map ad2 ∧
      (∀ j, j < selectBranch ev conds → ∀ c, conds.get? j = some c → ¬ ev c ≤ 0) ∧
      (∀ c, conds.get? (selectBranch ev conds) = some c → ev c ≤ 0) := by
  refine ⟨?_, condEvaluate_select ev conds exprs h, condAd_select ev ad conds exprs h,
    condAd2_select ev ad2 conds exprs h, (selectBranch_spec ev conds).1,
    (selectBranch_spec ev conds).2⟩
  have := selectBranch_le_length ev conds
  omega

/-- Witness for C3: conditions evaluating to `[5, -1]` and branches
`[10, 20, 30]` (with `ev = ad = ad2 = id` on `ℚ`) select branch 1. -/
theorem conditional_ladder_selects_first_nonpositive_branch_witness :
    condEvaluate (fun q : ℚ => q) [5, -1] [10, 20, 30] = some 20 := by
  have h := conditional_ladder_selects_first_nonpositive_branch
    (fun q : ℚ => q) (fun q : ℚ => q) (fun q : ℚ => q) [5, -1] [10, 20, 30] (by decide)
  rw [h.2.1]
  decide

/-- `condHasAd2` returns `some true` exactly when some branch's `has_ad2`
is true; when every branch answers `false` the loop falls off the end and
the code dereferences `exprs.end()` (modeled `none`): it never produces
`some false`. -/
theorem condHasAd2_eq_some_true_iff {E : Type} (hA : E → Bool) (exprs : List E) :
    (condHasAd2 hA exprs = some true ↔ ∃ e ∈ exprs, hA e) ∧
      (exprs.all (fun e => ! hA e) → condHasAd2 hA exprs = none) := by
  induction exprs with
  | nil => simp [condHasAd2]
  | cons e es ih =>
      by_cases h : hA e
      · simp [condHasAd2, h]
      · have hr : condHasAd2 hA (e :: es) = condHasAd2 hA es := by
          simp [condHasAd2, h]
        refine ⟨?_, ?_⟩
        · rw [hr, ih.1]
          simp [h]
        · intro hall
          rw [hr]
          apply ih.2
          simp only [List.all_cons, Bool.and_eq_true] at hall
          exact hall.2

/-- **C4 (divergence at the failing input).**  With two branches whose
`has_ad2` both answer `false`, `ConditionalConstraint::has_ad2` does not
return the Boolean OR of the branches (`false`): the scan exhausts the
vector and the trailing check dereferences the end iterator (modeled
`none`). -/
theorem conditional_has_ad2_all_false_is_not_or :
    condHasAd2 (fun b : Bool => b) [false, false] = none ∧
      condHasAd2 (fun b : Bool => b) [false, false] ≠
        some ([false, false].any (fun b : Bool => b)) := by
  decide

/-- **C5 (divergence at the failing input).**  With a single branch whose
`has_ad2` answers `false`, the implementation reads position 1 of the
one-element `exprs` vector — one past the final branch.  The invalid
access is the `none` result. -/
theorem conditional_has_ad2_reads_past_end_when_all_false :
    condHasAd2 (fun b : Bool => b) [false] = none := by
  decide

end WntrAml

namespace WntrAml

/-! ### Solver adapter `AML_NLP::eval_jac_g` (wntr/aml/aml/aml_tnlp.cpp)

The pattern call (`values == NULL`) and the value call run the same
doubly-nested loop: outer over `model->cons` (a `std::list`, in order),
inner over `ptr_to_con->expr->get_vars()` (a `std::set`, whose iteration
order is a fixed function of the set).  A constraint is modeled by its
`index`, the iteration order of its variable set, and the function
`v ↦ expr->ad(v, false)`. -/

/-- A `Var` of the Ipopt AML: identity `id` plus the `index` field. -/
structure HVar where
  id : ℕ
  index : ℤ
  deriving DecidableEq, Repr

/-- An `IpoptConstraint` as seen by `eval_jac_g` and by the Hessian-map
maintenance: the `index` field, the iteration sequence of
`expr->get_vars()`, the predicate `expr->has_ad2` and the derivative
`expr->ad(·, false)`. -/
structure HCon where
  id : ℕ
  index : ℤ
  vars : List HVar
  hasAd2 : HVar → HVar → Bool
  ad : HVar → ℚ

/-- Pattern branch of `eval_jac_g`: for each constraint in model order and
each `v` in its variable set, write `(iRow[i], jCol[i]) =
(con->index, v->index)` at the running position `i`. -/
def evalJacPattern : List HCon → List (ℤ × ℤ)
  | [] => []
  | c :: rest => c.vars.map (fun v => (c.index, v.index)) ++ evalJacPattern rest

/-- Value branch of `eval_jac_g`: the same loop writes
`values[i] = con->expr->ad(*v, false)`. -/
def evalJacValues : List HCon → List ℚ
  | [] => []
  | c :: rest => c.vars.map (fun v => c.ad v) ++ evalJacValues rest

/-- The common `(constraint, variable)` enumeration both branches follow. -/
def jacSeq : List HCon → List (HCon × HVar)
  | [] => []
  | c :: rest => c.vars.map (fun v => (c, v)) ++ jacSeq rest

theorem evalJacPattern_eq_map_jacSeq (cons : List HCon) :
    evalJacPattern cons = (jacSeq cons).map (fun p => (p.1.index, p.2.index)) := by
  induction cons with
  | nil => rfl
  | cons c rest ih =>
      simp [evalJacPattern, jacSeq, ih, List.map_map, Function.comp]

theorem evalJacValues_eq_map_jacSeq (cons : List HCon) :
    evalJacValues cons = (jacSeq cons).map (fun p => p.1.ad p.2) := by
  induction cons with
  | nil => rfl
  | cons c rest ih =>
      simp [evalJacValues, jacSeq, ih, List.map_map, Function.comp]

/-- **C6.** For a fixed model, the pattern call and the value call of
`eval_jac_g` enumerate the identical (constraint, variable) sequence:
both equal the map of `jacSeq` (constraints in model order, each
constraint's variable set in its fixed iteration order), position `k`
receiving `(c.index, v.index)` in the pattern call and `c.ad v`
(`expr->ad(v, false)`) in the value call for the same pair `(c, v)`. -/
theorem eval_jac_g_pattern_value_agree (cons : List HCon) :
    evalJacPattern cons = (jacSeq cons).map (fun p => (p.1.index, p.2.index)) ∧
      evalJacValues cons = (jacSeq cons).map (fun p => p.1.ad p.2) ∧
      (evalJacPattern cons).length = (evalJacValues cons).length ∧
      ∀ k p, (jacSeq cons).get? k = some p →
        (evalJacPattern cons).get? k = some (p.1.index, p.2.index) ∧
          (evalJacValues cons).get? k = some (p.1.ad p.2) := by
  have hp := evalJacPattern_eq_map_jacSeq cons
  have hv := evalJacValues_eq_map_jacSeq cons
  refine ⟨hp, hv, by simp [hp, hv], ?_⟩
  intro k p hk
  rw [List.get?_eq_getElem?] at hk
  constructor
  · rw [hp, List.get?_eq_getElem?, List.getElem?_map, hk]
    rfl
  · rw [hv, List.get?_eq_getElem?, List.getElem?_map, hk]
    rfl

end WntrAml

namespace WntrAml

/-! ### Expression graph (wntr/aml/expression.cpp)

Node kinds: `Var`, `Param`, `Summation`, `Expression` and the 27
operator classes (`XxxYyyMultiplyOperator` / `DivideOperator` /
`PowerOperator`), which all report `get_type() == "Node"` (the base
implementation) and whose `evaluate` formulas agree within each
arithmetic operation; they are modeled by one `binop` constructor tagged
with the operation.  An `Expression`'s topologically ordered operator
list, in which each operator reads the cached values its children wrote
earlier in the same pass, is modeled by the tree rooted at its last
node (`nodes->back()`) together with the cached variable set `vars`;
because every node's `evaluate` is a deterministic function of its
subtree, the list pass and the tree recursion compute the same value.

`Summation` carries: `nodes` (children), parallel `coefs`, `constant`,
the `sparsity` map Var → child-index list (keyed here by the variable's
`id`, a total function that is `[]` off its support, matching
`unordered_map::operator[]`), and the cached var set `vars` (kept as the
insertion-ordered list of a `std::unordered_set`, faithful up to the
unspecified set order). -/

/-- The arithmetic operation of an operator node.  The nine concrete
classes per operation share one `evaluate` body
(`value = node1->value OP node2->value`). -/
inductive BOp where
  | mul
  | div
  | pow
  deriving DecidableEq, Repr

/-- Shallow embedding of the `Node` hierarchy (see section comment). -/
inductive XNode where
  | var (id : ℕ) (val : ℚ)
  | param (val : ℚ)
  | binop (op : BOp) (l r : XNode)
  | summ (children : List XNode) (coefs : List ℚ) (constant : ℚ)
      (sparsity : ℕ → List ℕ) (vars : List ℕ)
  | expr (root : XNode) (vars : List ℕ)

/-- `Node::get_type` and its overrides. -/
def XNode.getType : XNode → String
  | .var _ _ => "Var"
  | .param _ => "Param"
  | .binop _ _ _ => "Node"
  | .summ _ _ _ _ _ => "Summation"
  | .expr _ _ => "Expression"

/-- `get_vars`: `Var` yields itself, `Summation` and `Expression` their
cached sets, `Param` and bare operator nodes the base empty set. -/
def getVars : XNode → List ℕ
  | .var i _ => [i]
  | .param _ => []
  | .binop _ _ _ => []
  | .summ _ _ _ _ vs => vs
  | .expr _ vs => vs

/-- `get_nodes` (base: empty vector; `Summation` override). -/
def summNodes : XNode → List XNode
  | .summ ch _ _ _ _ => ch
  | _ => []

/-- `get_coefs` (base: empty vector; `Summation` override). -/
def summCoefs : XNode → List ℚ
  | .summ _ cf _ _ _ => cf
  | _ => []

/-- `get_const` (base: `0.0`; `Summation` override). -/
def summConst : XNode → ℚ
  | .summ _ _ k _ _ => k
  | _ => 0

/-- `get_sparsity` (base: empty map; `Summation` override). -/
def summSparsity : XNode → (ℕ → List ℕ)
  | .summ _ _ _ sp _ => sp
  | _ => fun _ => []

/-- `pow` on doubles, restricted to the exact cases the claims exercise:
for an integer exponent `e`, `b ^ e` is computed exactly (in particular
`pow(b, 0) = 1` and `pow(b, 1) = b`, as for IEEE `::pow`); a non-integer
exponent has no rational counterpart and is mapped to the junk value 0. -/
def qpow (b e : ℚ) : ℚ :=
  if e.den = 1 then b ^ e.num else 0

mutual

/-- `evaluate` of each node class: leaves return their value, operator
nodes combine their operands' values, `Summation::evaluate` computes
`constant + Σ coefs[i] * nodes[i]->evaluate()`, `Expression::evaluate`
yields the value of its last node. -/
def evaluate : XNode → ℚ
  | .var _ v => v
  | .param v => v
  | .binop .mul l r => evaluate l * evaluate r
  | .binop .div l r => evaluate l / evaluate r
  | .binop .pow l r => qpow (evaluate l) (evaluate r)
  | .summ ch cf k _ _ => k + evalSum ch cf
  | .expr root _ => evaluate root

/-- The loop of `Summation::evaluate`: the `i`-th child is weighted by
`coefs[i]` (a missing coefficient — out of bounds in C++ — reads as the
junk value 0). -/
def evalSum : List XNode → List ℚ → ℚ
  | [], _ => 0
  | n :: ns, cf => cf.headD 0 * evaluate n + evalSum ns cf.tail

end

/-- One `sparsity[v].push_back(idx)` per variable of a freshly appended
child, in the child's `get_vars` iteration order
(`unordered_map::operator[]` default-constructs the missing list). -/
def pushSparsity (sp : ℕ → List ℕ) (vs : List ℕ) (idx : ℕ) : ℕ → List ℕ :=
  vs.foldl (fun s v => Function.update s v (s v ++ [idx])) sp

/-- `unordered_set::insert` of one element, keeping insertion order. -/
def insertVar (l : List ℕ) (v : ℕ) : List ℕ :=
  if v ∈ l then l else l ++ [v]

/-- `vars->insert(v)` for each variable of an appended child. -/
def insertVars (l : List ℕ) (vs : List ℕ) : List ℕ :=
  vs.foldl insertVar l

/-- Inner loop of the Summation+Summation branch of `summation_helper`:
append each of the right operand's children (already paired with its
scaled coefficient) and record its variables at the new child index. -/
def foldAppendChildren :
    List XNode × List ℚ × (ℕ → List ℕ) × List ℕ → List (XNode × ℚ) →
      List XNode × List ℚ × (ℕ → List ℕ) × List ℕ
  | st, [] => st
  | (ch, cf, sp, vs), (n, q) :: rest =>
      foldAppendChildren
        (ch ++ [n], cf ++ [q], pushSparsity sp (getVars n) ch.length,
          insertVars vs (getVars n)) rest

/-- `summation_helper(n1, n2, c)` — the additive builder behind
`Node::operator+` (`c = 1`) and `Node::operator-` (`c = -1`), with its
four `get_type() == "Summation"` branches:
* Summation + Summation: append the right operand's children with
  coefficients scaled by `c`, merge sparsity and vars, add `c` times the
  right constant;
* Summation + other: append the right operand with coefficient `c`;
* other + Summation: scale the Summation's coefficients and constant by
  `c`, then append the left operand with coefficient 1, pushing the new
  child index on the sparsity list of each of the left operand's
  variables (the Summation is mutated in place and returned);
* other + other: a fresh two-term Summation with coefficients `(1, c)`. -/
def summationHelper (n1 n2 : XNode) (c : ℚ) : XNode :=
  if n1.getType = "Summation" then
    if n2.getType = "Summation" then
      let st := foldAppendChildren
        (summNodes n1, summCoefs n1, summSparsity n1, getVars n1)
        ((summNodes n2).zip ((summCoefs n2).map (fun q => c * q)))
      .summ st.1 st.2.1 (summConst n1 + c * summConst n2) st.2.2.1 st.2.2.2
    else
      .summ (summNodes n1 ++ [n2]) (summCoefs n1 ++ [c]) (summConst n1)
        (pushSparsity (summSparsity n1) (getVars n2) (summNodes n1).length)
        (insertVars (getVars n1) (getVars n2))
  else
    if n2.getType = "Summation" then
      .summ (summNodes n2 ++ [n1]) ((summCoefs n2).map (fun q => c * q) ++ [1])
        (c * summConst n2)
        (pushSparsity (summSparsity n2) (getVars n1) (summNodes n2).length)
        (insertVars (getVars n2) (getVars n1))
    else
      .summ [n1, n2] [1, c] 0
        (pushSparsity (pushSparsity (fun _ => []) (getVars n1) 0) (getVars n2) 1)
        (insertVars (insertVars [] (getVars n1)) (getVars n2))

/-- `Node::add_const` / `Summation::add_const`, reached by
`operator+(double)` and `operator-(double)`: a Summation absorbs the
constant in place; any other node is wrapped in a fresh Summation with
coefficient 1 whose sparsity records the node's variables at index 0
(the C++ restriction of the sparsity/vars update to the `Var` and
`Expression` types is vacuous for the remaining types, whose `get_vars`
is empty). -/
def addConstN : XNode → ℚ → XNode
  | .summ ch cf k sp vs, c => .summ ch cf (k + c) sp vs
  | x, c =>
      .summ [x] [1] c (pushSparsity (fun _ => []) (getVars x) 0)
        (insertVars [] (getVars x))

/-- `Node::operator*(double c)`: a Summation is scaled in place
(`multiply_const(c)` then each coefficient times `c`) and returned;
any other node is wrapped in a fresh one-term Summation with
coefficient `c`. -/
def mulConstN : XNode → ℚ → XNode
  | .summ ch cf k sp vs, c => .summ ch (cf.map (fun q => c * q)) (k * c) sp vs
  | x, c =>
      .summ [x] [c] 0 (pushSparsity (fun _ => []) (getVars x) 0)
        (insertVars [] (getVars x))

/-- `Node::__pow__(double c)` builds `Param(c)` and dispatches
`__pow__(Node&)` with a `"Param"` right operand: `Var`/`Param` bases get
a fresh one-node `Expression` around the power operator, a `Summation`
base gets an `Expression` holding the base and the operator, an
`Expression` base has the operator appended to its own node list.  A
bare operator node would take the `Expression` branch and call
`back()` on the base class's empty node vector — undefined behaviour,
modeled `none`. -/
def powParam : XNode → ℚ → Option XNode
  | .var i v, c => some (.expr (.binop .pow (.var i v) (.param c)) (getVars (.var i v)))
  | .param v, c => some (.expr (.binop .pow (.param v) (.param c)) [])
  | .summ ch cf k sp vs, c =>
      some (.expr (.binop .pow (.summ ch cf k sp vs) (.param c)) (getVars (.summ ch cf k sp vs)))
  | .expr root vs, c => some (.expr (.binop .pow root (.param c)) vs)
  | .binop _ _ _, _ => none

theorem pushSparsity_not_mem (sp : ℕ → List ℕ) (vs : List ℕ) (idx : ℕ)
    (v : ℕ) (hv : v ∉ vs) : pushSparsity sp vs idx v = sp v := by
  induction vs generalizing sp with
  | nil => rfl
  | cons w rest ih =>
      have hvw : v ≠ w := by
        intro h; exact hv (by simp [h])
      have hvr : v ∉ rest := fun h => hv (by simp [h])
      simp only [pushSparsity, List.foldl_cons]
      rw [show (List.foldl (fun s u => Function.update s u (s u ++ [idx])) (Function.update sp w (sp w ++ [idx])) rest) = pushSparsity (Function.update sp w (sp w ++ [idx])) rest idx from rfl]
      rw [ih _ hvr, Function.update_noteq hvw]

theorem pushSparsity_mem (vs : List ℕ) (idx : ℕ) :
    ∀ sp : ℕ → List ℕ, vs.Nodup → ∀ v ∈ vs,
      pushSparsity sp vs idx v = sp v ++ [idx] := by
  induction vs with
  | nil => intro sp _ v hv; cases hv
  | cons w rest ih =>
      intro sp hnd v hv
      have hstep : pushSparsity sp (w :: rest) idx =
          pushSparsity (Function.update sp w (sp w ++ [idx])) rest idx := rfl
      rcases List.mem_cons.mp hv with h | h
      · subst h
        have hnr : v ∉ rest := (List.nodup_cons.mp hnd).1
        rw [hstep, pushSparsity_not_mem _ _ _ _ hnr, Function.update_same]
      · have hvw : v ≠ w := by
          intro hEq
          exact (List.nodup_cons.mp hnd).1 (hEq ▸ h)
        rw [hstep, ih _ (List.nodup_cons.mp hnd).2 v h, Function.update_noteq hvw]

theorem mem_insertVar (l : List ℕ) (w v : ℕ) :
    v ∈ insertVar l w ↔ v ∈ l ∨ v = w := by
  unfold insertVar
  by_cases h : w ∈ l
  · simp only [if_pos h]
    constructor
    · exact Or.inl
    · rintro (hv | rfl)
      · exact hv
      · exact h
  · simp [if_neg h]

theorem mem_insertVars (l vs : List ℕ) (v : ℕ) :
    v ∈ insertVars l vs ↔ v ∈ l ∨ v ∈ vs := by
  induction vs generalizing l with
  | nil => simp [insertVars]
  | cons w rest ih =>
      have hstep : insertVars l (w :: rest) = insertVars (insertVar l w) rest := rfl
      rw [hstep, ih, mem_insertVar]
      constructor
      · rintro ((h | h) | h)
        · exact Or.inl h
        · exact Or.inr (by simp [h])
        · exact Or.inr (by simp [h])
      · rintro (h | h)
        · exact Or.inl (Or.inl h)
        · rcases List.mem_cons.mp h with h | h
          · exact Or.inl (Or.inr h)
          · exact Or.inr h

theorem evalSum_append (ch1 ch2 : List XNode) (cf1 cf2 : List ℚ)
    (h : cf1.length = ch1.length) :
    evalSum (ch1 ++ ch2) (cf1 ++ cf2) = evalSum ch1 cf1 + evalSum ch2 cf2 := by
  induction ch1 generalizing cf1 with
  | nil =>
      have : cf1 = [] := List.length_eq_zero.mp (by simpa using h)
      subst this
      simp [evalSum]
  | cons n ns ih =>
      cases cf1 with
      | nil => simp at h
      | cons q qs =>
          have h' : qs.length = ns.length := by simpa using h
          simp only [List.cons_append, evalSum, List.headD_cons, List.tail_cons,
            List.append_eq]
          rw [ih qs h']
          ring

theorem evalSum_nil_coefs (ch : List XNode) : evalSum ch [] = 0 := by
  induction ch with
  | nil => rfl
  | cons n ns ih =>
      simp only [evalSum, List.headD_nil, List.tail_nil, ih]
      ring

theorem evalSum_map_mul (c : ℚ) (ch : List XNode) (cf : List ℚ) :
    evalSum ch (cf.map (fun q => c * q)) = c * evalSum ch cf := by
  induction ch generalizing cf with
  | nil => simp [evalSum]
  | cons n ns ih =>
      cases cf with
      | nil =>
          simp only [List.map_nil, evalSum, List.headD_nil, List.tail_nil,
            evalSum_nil_coefs]
          ring
      | cons q qs =>
          simp only [List.map_cons, evalSum, List.headD_cons, List.tail_cons]
          rw [ih qs]
          ring

end WntrAml

namespace WntrAml

/-- **C7.** When the left operand of `+`/`-` is a non-Summation node and
the right operand is a Summation, `summation_helper` returns that
Summation mutated in place (modeled functionally): its coefficients and
constant are multiplied by the sign `c` (`+1` for addition, `-1` for
subtraction), the left operand is appended as a child with coefficient
1, the sparsity list of each of the left operand's variables gains the
new child's index (`|children|` of the old Summation), other sparsity
lists are untouched, and the result's `evaluate()` is its constant plus
the coefficient-weighted sum of its children's values — equivalently
`evaluate(n1) + c * evaluate(n2)`. -/
theorem summation_helper_nonsummation_plus_summation
    (n1 : XNode) (ch : List XNode) (cf : List ℚ) (k : ℚ)
    (sp : ℕ → List ℕ) (vs : List ℕ) (c : ℚ)
    (hn1 : n1.getType ≠ "Summation") (hnd : (getVars n1).Nodup)
    (hlen : cf.length = ch.length) :
    summationHelper n1 (.summ ch cf k sp vs) c =
        .summ (ch ++ [n1]) (cf.map (fun q => c * q) ++ [1]) (c * k)
          (pushSparsity sp (getVars n1) ch.length)
          (insertVars vs (getVars n1)) ∧
      (∀ v ∈ getVars n1,
        pushSparsity sp (getVars n1) ch.length v = sp v ++ [ch.length]) ∧
      (∀ v, v ∉ getVars n1 → pushSparsity sp (getVars n1) ch.length v = sp v) ∧
      (∀ v, v ∈ insertVars vs (getVars n1) ↔ v ∈ vs ∨ v ∈ getVars n1) ∧
      evaluate (summationHelper n1 (.summ ch cf k sp vs) c) =
        c * k + evalSum (ch ++ [n1]) (cf.map (fun q => c * q) ++ [1]) ∧
      evaluate (summationHelper n1 (.summ ch cf k sp vs) c) =
        evaluate n1 + c * evaluate (.summ ch cf k sp vs) := by
  have hdef : summationHelper n1 (.summ ch cf k sp vs) c =
      .summ (ch ++ [n1]) (cf.map (fun q => c * q) ++ [1]) (c * k)
        (pushSparsity sp (getVars n1) ch.length)
        (insertVars vs (getVars n1)) := by
    unfold summationHelper
    rw [if_neg hn1,
      if_pos (show (XNode.summ ch cf k sp vs).getType = "Summation" from rfl)]
    rfl
  refine ⟨hdef, fun v hv => pushSparsity_mem _ _ sp hnd v hv,
    fun v hv => pushSparsity_not_mem sp _ _ v hv,
    fun v => mem_insertVars vs _ v, ?_, ?_⟩
  · rw [hdef]
    rfl
  · rw [hdef]
    show c * k + evalSum (ch ++ [n1]) (cf.map (fun q => c * q) ++ [1]) = _
    rw [evalSum_append ch [n1] (cf.map (fun q => c * q)) [1] (by simpa using hlen)]
    rw [evalSum_map_mul]
    show c * k + (c * evalSum ch cf + (1 * evaluate n1 + 0)) =
      evaluate n1 + c * (k + evalSum ch cf)
    ring

/-- Witness for C7: `x - (4 + 5·p)` with `x = Var(id 7, value 3)` and
`p = Param(2)`: the mutated Summation has children `[p, x]`, coefficients
`[-5, 1]`, constant `-4`, sparsity list `[1]` for `x`, and evaluates to
`3 - (4 + 5·2) = -11`. -/
theorem summation_helper_nonsummation_plus_summation_witness :
    evaluate (summationHelper (XNode.var 7 3)
        (XNode.summ [XNode.param 2] [5] 4 (fun _ => []) []) (-1)) = -11 ∧
      pushSparsity (fun _ => []) (getVars (XNode.var 7 3)) 1 7 = [1] := by
  have h := summation_helper_nonsummation_plus_summation
    (XNode.var 7 3) [XNode.param 2] [5] 4 (fun _ => []) [] (-1)
    (by decide) (by decide) (by decide)
  constructor
  · rw [h.2.2.2.2.2]
    show (3 : ℚ) + (-1) * (4 + (5 * 2 + 0)) = -11
    norm_num
  · exact h.2.1 7 (by decide)

/-- **C8 (counterexample).**  For `E = Var(id 0, value 5)` none of the
claimed build-time folds happens: `E + 0` (and `0 + E`, which routes
through the same `add_const`) returns a fresh Summation, not `E`;
`1 · E` returns a fresh Summation, not `E`; `0 · E` returns a Summation,
not the constant node `0`; `E ^ 0` returns an Expression around a power
operator, not the constant `1`; `E ^ 1` returns such an Expression,
not `E`. -/
theorem no_build_time_folds_counterexample :
    addConstN (XNode.var 0 5) 0 ≠ XNode.var 0 5 ∧
      mulConstN (XNode.var 0 5) 1 ≠ XNode.var 0 5 ∧
      mulConstN (XNode.var 0 5) 0 ≠ XNode.param 0 ∧
      powParam (XNode.var 0 5) 0 ≠ some (XNode.param 1) ∧
      powParam (XNode.var 0 5) 1 ≠ some (XNode.var 0 5) := by
  refine ⟨?_, ?_, ?_, ?_, ?_⟩
  · intro h
    exact absurd (congrArg XNode.getType h) (by decide)
  · intro h
    exact absurd (congrArg XNode.getType h) (by decide)
  · intro h
    exact absurd (congrArg XNode.getType h) (by decide)
  · intro h
    exact absurd (congrArg (Option.map XNode.getType) h) (by decide)
  · intro h
    exact absurd (congrArg (Option.map XNode.getType) h) (by decide)

/-- **C8 (amended).**  The builders perform no identity folding; instead
the constructed nodes are semantically the claimed fixpoints:
`E + 0` (and `0 + E`) evaluates to `E`'s value, `1 · E` evaluates to
`E`'s value, `0 · E` evaluates to 0, and — for every operand on which
`__pow__` is defined (everything except a bare operator node, where the
C++ would call `back()` on an empty vector) — `E ^ 0` evaluates to 1 and
`E ^ 1` evaluates to `E`'s value.  The results are new Summation /
Expression nodes except that a Summation operand of `+ 0` or `· c` is
mutated in place. -/
theorem build_constructions_evaluate_to_fixpoints (E : XNode) :
    evaluate (addConstN E 0) = evaluate E ∧
      evaluate (mulConstN E 1) = evaluate E ∧
      evaluate (mulConstN E 0) = 0 ∧
      (E.getType ≠ "Node" →
        ∃ r, powParam E 0 = some r ∧ evaluate r = 1) ∧
      (E.getType ≠ "Node" →
        ∃ r, powParam E 1 = some r ∧ evaluate r = evaluate E) := by
  have hq0 : ∀ b : ℚ, qpow b 0 = 1 := by
    intro b
    simp [qpow]
  have hq1 : ∀ b : ℚ, qpow b 1 = b := by
    intro b
    simp [qpow]
  refine ⟨?_, ?_, ?_, ?_, ?_⟩
  · cases E with
    | summ ch cf k sp vs => show k + 0 + evalSum ch cf = k + evalSum ch cf; ring
    | var i v => show 0 + (1 * evaluate (XNode.var i v) + 0) = _; simp [evaluate]
    | param v => show 0 + (1 * evaluate (XNode.param v) + 0) = _; simp [evaluate]
    | binop op l r => show 0 + (1 * evaluate (XNode.binop op l r) + 0) = _; ring
    | expr root vs => show 0 + (1 * evaluate (XNode.expr root vs) + 0) = _; ring
  · cases E with
    | summ ch cf k sp vs =>
        show k * 1 + evalSum ch (cf.map (fun q => (1 : ℚ) * q)) = k + evalSum ch cf
        rw [evalSum_map_mul]
        ring
    | var i v => show 0 + (1 * evaluate (XNode.var i v) + 0) = _; simp [evaluate]
    | param v => show 0 + (1 * evaluate (XNode.param v) + 0) = _; simp [evaluate]
    | binop op l r => show 0 + (1 * evaluate (XNode.binop op l r) + 0) = _; ring
    | expr root vs => show 0 + (1 * evaluate (XNode.expr root vs) + 0) = _; ring
  · cases E with
    | summ ch cf k sp vs =>
        show k * 0 + evalSum ch (cf.map (fun q => (0 : ℚ) * q)) = 0
        rw [evalSum_map_mul]
        ring
    | var i v => show 0 + (0 * evaluate (XNode.var i v) + 0) = 0; ring
    | param v => show 0 + (0 * evaluate (XNode.param v) + 0) = 0; ring
    | binop op l r => show 0 + (0 * evaluate (XNode.binop op l r) + 0) = 0; ring
    | expr root vs => show 0 + (0 * evaluate (XNode.expr root vs) + 0) = 0; ring
  · intro hE
    cases E with
    | var i v => exact ⟨_, rfl, by show qpow (evaluate (XNode.var i v)) (evaluate (XNode.param 0)) = 1; show qpow v 0 = 1; exact hq0 v⟩
    | param v => exact ⟨_, rfl, by show qpow v 0 = 1; exact hq0 v⟩
    | summ ch cf k sp vs => exact ⟨_, rfl, by show qpow (k + evalSum ch cf) 0 = 1; exact hq0 _⟩
    | expr root vs => exact ⟨_, rfl, by show qpow (evaluate root) 0 = 1; exact hq0 _⟩
    | binop op l r => exact absurd rfl hE
  · intro hE
    cases E with
    | var i v => exact ⟨_, rfl, by show qpow v 1 = v; exact hq1 v⟩
    | param v => exact ⟨_, rfl, by show qpow v 1 = v; exact hq1 v⟩
    | summ ch cf k sp vs => exact ⟨_, rfl, by show qpow (k + evalSum ch cf) 1 = k + evalSum ch cf; exact hq1 _⟩
    | expr root vs => exact ⟨_, rfl, by show qpow (evaluate root) 1 = evaluate root; exact hq1 _⟩
    | binop op l r => exact absurd rfl hE

/-- Witness for the amended C8 at `E = Var(id 0, value 5)`. -/
theorem build_constructions_evaluate_to_fixpoints_witness :
    evaluate (addConstN (XNode.var 0 5) 0) = 5 ∧
      evaluate (mulConstN (XNode.var 0 5) 0) = 0 ∧
      ∃ r, powParam (XNode.var 0 5) 0 = some r ∧ evaluate r = 1 := by
  have h := build_constructions_evaluate_to_fixpoints (XNode.var 0 5)
  refine ⟨?_, h.2.2.1, h.2.2.2.1 (by decide)⟩
  rw [h.1]
  rfl

end WntrAml

namespace WntrAml

/-! ### IpoptModel Hessian map (wntr/aml/aml/ipopt_model.cpp)

`hessian_map` is
`std::map<shared_ptr<Var>, std::map<shared_ptr<Var>, std::map<string, std::set<shared_ptr<IpoptComponent>>>>>`.
Keys are component/variable identities (pointer values), modeled by the
`id` fields; the innermost `map<string, set>` only ever holds keys
`"obj"` and `"cons"`, modeled as a pair of id-sets (`operator[]` on a
missing string key yields an empty set, so a total two-field record is
an exact quotient).  The two nested variable maps are modeled as
association lists so that *key presence* — including the possibility of
an empty inner row — is represented faithfully; `operator[]`'s
insert-if-missing and `erase`'s pruning are spelled out in `hmInsert`
and `hmRemove` below exactly as the C++ composite statements execute
them. -/

/-- The inner `map<string, set<shared_ptr<IpoptComponent>>>` of a
Hessian-map cell: the `"obj"` and `"cons"` contributor id-sets. -/
structure HEntry where
  obj : Finset ℕ
  cons : Finset ℕ
  deriving DecidableEq

def HEntry.empty : HEntry := ⟨∅, ∅⟩

/-- Which contributor set a mutation touches (`"obj"` or `"cons"`). -/
inductive HKind where
  | obj
  | cons
  deriving DecidableEq, Repr

def HEntry.insertK : HEntry → HKind → ℕ → HEntry
  | e, .obj, i => ⟨insert i e.obj, e.cons⟩
  | e, .cons, i => ⟨e.obj, insert i e.cons⟩

def HEntry.eraseK : HEntry → HKind → ℕ → HEntry
  | e, .obj, i => ⟨e.obj.erase i, e.cons⟩
  | e, .cons, i => ⟨e.obj, e.cons.erase i⟩

/-- `std::map` find, on an association list. -/
def aget {α β : Type} [DecidableEq α] : List (α × β) → α → Option β
  | [], _ => none
  | (a, b) :: t, a' => if a' = a then some b else aget t a'

/-- `std::map::operator[] = value`: update the key in place or append it. -/
def aput {α β : Type} [DecidableEq α] : List (α × β) → α → β → List (α × β)
  | [], a, b => [(a, b)]
  | (x, y) :: t, a, b => if x = a then (a, b) :: t else (x, y) :: aput t a b

/-- `std::map::erase(key)`. -/
def adel {α β : Type} [DecidableEq α] : List (α × β) → α → List (α × β)
  | [], _ => []
  | (x, y) :: t, a => if x = a then adel t a else (x, y) :: adel t a

theorem aget_aput {α β : Type} [DecidableEq α] (l : List (α × β)) (a a' : α) (b : β) :
    aget (aput l a b) a' = if a' = a then some b else aget l a' := by
  induction l with
  | nil => simp [aput, aget]
  | cons p t ih =>
      obtain ⟨x, y⟩ := p
      by_cases hxa : x = a
      · subst hxa
        simp only [aput, if_pos rfl]
        by_cases h' : a' = x
        · subst h'; simp [aget]
        · simp [aget, h']
      · simp only [aput, if_neg hxa]
        by_cases h' : a' = x
        · subst h'
          have : ¬ a' = a := fun h => hxa (by rw [← h])
          simp [aget, this]
        · simp [aget, h', ih]

theorem aget_adel {α β : Type} [DecidableEq α] (l : List (α × β)) (a a' : α) :
    aget (adel l a) a' = if a' = a then none else aget l a' := by
  induction l with
  | nil => simp [adel, aget]
  | cons p t ih =>
      obtain ⟨x, y⟩ := p
      by_cases hxa : x = a
      · subst hxa
        rw [show adel ((x, y) :: t) x = adel t x from by simp [adel]]
        rw [ih]
        by_cases h' : a' = x
        · simp [h']
        · simp [aget, h']
      · rw [show adel ((x, y) :: t) a = (x, y) :: adel t a from by simp [adel, hxa]]
        by_cases h' : a' = x
        · subst h'
          simp [aget, hxa]
        · simp [aget, h', ih]

theorem aput_ne_nil {α β : Type} [DecidableEq α] (l : List (α × β)) (a : α) (b : β) :
    aput l a b ≠ [] := by
  cases l with
  | nil => simp [aput]
  | cons p t =>
      obtain ⟨x, y⟩ := p
      by_cases h : x = a <;> simp [aput, h]

theorem aget_none_of_adel_nil {α β : Type} [DecidableEq α]
    (l : List (α × β)) (a a' : α) (h : adel l a = []) (h' : a' ≠ a) :
    aget l a' = none := by
  induction l with
  | nil => rfl
  | cons p t ih =>
      obtain ⟨x, y⟩ := p
      by_cases hxa : x = a
      · subst hxa
        have ht : adel t x = [] := by simpa [adel] using h
        have hax : ¬ a' = x := h'
        simp only [aget, if_neg hax]
        exact ih ht
      · exfalso
        simp [adel, hxa] at h

/-- One Hessian-map row (`std::map<shared_ptr<Var>, map<string, set>>`). -/
abbrev HRow := List (HVar × HEntry)

/-- The full nested Hessian map. -/
abbrev HHMap := List (HVar × HRow)

/-- `hessian_map[v1][v2]`, reported as `none` when either key is absent. -/
def hmGet (m : HHMap) (v1 v2 : HVar) : Option HEntry :=
  (aget m v1).bind (fun row => aget row v2)

/-- `hessian_map[ptr_to_var1][ptr_to_var2][kind].insert(comp)`: the two
`operator[]` calls materialize the row and the cell, then the component
id is inserted into the `kind` contributor set. -/
def hmInsert (m : HHMap) (v1 v2 : HVar) (k : HKind) (cid : ℕ) : HHMap :=
  aput m v1 (aput ((aget m v1).getD []) v2
    (((aget ((aget m v1).getD []) v2).getD HEntry.empty).insertK k cid))

/-- The composite erase of `set_objective` / `remove_constraint`:
`hessian_map[v1][v2][kind].erase(comp)`, then if both the `"cons"` and
`"obj"` sets of that cell are empty (after `operator[]` materialized
them), `hessian_map[v1].erase(v2)`, and if the row went empty,
`hessian_map.erase(v1)`. -/
def hmRemove (m : HHMap) (v1 v2 : HVar) (k : HKind) (cid : ℕ) : HHMap :=
  if ((aget ((aget m v1).getD []) v2).getD HEntry.empty).eraseK k cid = HEntry.empty then
    if adel ((aget m v1).getD []) v2 = [] then adel m v1
    else aput m v1 (adel ((aget m v1).getD []) v2)
  else
    aput m v1 (aput ((aget m v1).getD []) v2
      (((aget ((aget m v1).getD []) v2).getD HEntry.empty).eraseK k cid))

/-- Entry transform realized by one `hmInsert`. -/
def insF (k : HKind) (cid : ℕ) (o : Option HEntry) : Option HEntry :=
  some ((o.getD HEntry.empty).insertK k cid)

/-- Entry transform realized by one `hmRemove` (erase then prune). -/
def remF (k : HKind) (cid : ℕ) (o : Option HEntry) : Option HEntry :=
  if (o.getD HEntry.empty).eraseK k cid = HEntry.empty then none
  else some ((o.getD HEntry.empty).eraseK k cid)

theorem hmGet_eq_aget_getD (m : HHMap) (v1 v2 : HVar) :
    hmGet m v1 v2 = aget ((aget m v1).getD []) v2 := by
  rw [hmGet]
  cases hr : aget m v1 with
  | none => rfl
  | some r => rfl

theorem hmGet_hmInsert (m : HHMap) (v1 v2 : HVar) (k : HKind) (cid : ℕ)
    (w1 w2 : HVar) :
    hmGet (hmInsert m v1 v2 k cid) w1 w2 =
      if w1 = v1 ∧ w2 = v2 then insF k cid (hmGet m v1 v2)
      else hmGet m w1 w2 := by
  unfold hmInsert insF
  by_cases h1 : w1 = v1
  · subst h1
    rw [hmGet, aget_aput, if_pos rfl, Option.some_bind, aget_aput]
    by_cases h2 : w2 = v2
    · subst h2
      rw [if_pos rfl, if_pos ⟨rfl, rfl⟩, hmGet_eq_aget_getD]
    · rw [if_neg h2, if_neg (fun hc => h2 hc.2), hmGet_eq_aget_getD]
  · rw [if_neg (fun hc => h1 hc.1), hmGet, aget_aput, if_neg h1, hmGet]

theorem hmGet_hmRemove (m : HHMap) (v1 v2 : HVar) (k : HKind) (cid : ℕ)
    (w1 w2 : HVar) :
    hmGet (hmRemove m v1 v2 k cid) w1 w2 =
      if w1 = v1 ∧ w2 = v2 then remF k cid (hmGet m v1 v2)
      else hmGet m w1 w2 := by
  unfold hmRemove remF
  rw [hmGet_eq_aget_getD m v1 v2]
  by_cases hemp : ((aget ((aget m v1).getD []) v2).getD HEntry.empty).eraseK k cid
      = HEntry.empty
  · rw [if_pos hemp]
    by_cases hnil : adel ((aget m v1).getD []) v2 = []
    · rw [if_pos hnil]
      by_cases h1 : w1 = v1
      · subst h1
        rw [hmGet, aget_adel, if_pos rfl, Option.none_bind]
        by_cases h2 : w2 = v2
        · subst h2
          rw [if_pos ⟨rfl, rfl⟩, if_pos hemp]
        · rw [if_neg (fun hc => h2 hc.2), hmGet_eq_aget_getD]
          exact (aget_none_of_adel_nil _ v2 w2 hnil h2).symm
      · rw [if_neg (fun hc => h1 hc.1), hmGet, aget_adel, if_neg h1, hmGet]
    · rw [if_neg hnil]
      by_cases h1 : w1 = v1
      · subst h1
        rw [hmGet, aget_aput, if_pos rfl, Option.some_bind, aget_adel]
        by_cases h2 : w2 = v2
        · subst h2
          rw [if_pos rfl, if_pos ⟨rfl, rfl⟩, if_pos hemp]
        · rw [if_neg h2, if_neg (fun hc => h2 hc.2), hmGet_eq_aget_getD]
      · rw [if_neg (fun hc => h1 hc.1), hmGet, aget_aput, if_neg h1, hmGet]
  · rw [if_neg hemp]
    by_cases h1 : w1 = v1
    · subst h1
      rw [hmGet, aget_aput, if_pos rfl, Option.some_bind, aget_aput]
      by_cases h2 : w2 = v2
      · subst h2
        rw [if_pos rfl, if_pos ⟨rfl, rfl⟩, if_neg hemp]
      · rw [if_neg h2, if_neg (fun hc => h2 hc.2), hmGet_eq_aget_getD]
    · rw [if_neg (fun hc => h1 hc.1), hmGet, aget_aput, if_neg h1, hmGet]

/-- No row of the map is the empty list (the pruning invariant). -/
def rowsOk (m : HHMap) : Prop :=
  ∀ v1 row, aget m v1 = some row → row ≠ []

theorem rowsOk_hmInsert (m : HHMap) (v1 v2 : HVar) (k : HKind) (cid : ℕ)
    (h : rowsOk m) : rowsOk (hmInsert m v1 v2 k cid) := by
  intro w row hw
  unfold hmInsert at hw
  rw [aget_aput] at hw
  by_cases h1 : w = v1
  · rw [if_pos h1] at hw
    cases hw
    exact aput_ne_nil _ _ _
  · rw [if_neg h1] at hw
    exact h w row hw

theorem rowsOk_hmRemove (m : HHMap) (v1 v2 : HVar) (k : HKind) (cid : ℕ)
    (h : rowsOk m) : rowsOk (hmRemove m v1 v2 k cid) := by
  intro w row hw
  unfold hmRemove at hw
  by_cases hemp : ((aget ((aget m v1).getD []) v2).getD HEntry.empty).eraseK k cid
      = HEntry.empty
  · rw [if_pos hemp] at hw
    by_cases hnil : adel ((aget m v1).getD []) v2 = []
    · rw [if_pos hnil, aget_adel] at hw
      by_cases h1 : w = v1
      · rw [if_pos h1] at hw
        cases hw
      · rw [if_neg h1] at hw
        exact h w row hw
    · rw [if_neg hnil, aget_aput] at hw
      by_cases h1 : w = v1
      · rw [if_pos h1] at hw
        cases hw
        exact hnil
      · rw [if_neg h1] at hw
        exact h w row hw
  · rw [if_neg hemp, aget_aput] at hw
    by_cases h1 : w = v1
    · rw [if_pos h1] at hw
      cases hw
      exact aput_ne_nil _ _ _
    · rw [if_neg h1] at hw
      exact h w row hw

end WntrAml

namespace WntrAml

theorem foldl_guard_pointwise
    (op : HHMap → HVar → HVar → HHMap) (f : Option HEntry → Option HEntry)
    (hop : ∀ m a b w1 w2, hmGet (op m a b) w1 w2 =
      if w1 = a ∧ w2 = b then f (hmGet m a b) else hmGet m w1 w2)
    (hf : ∀ x, f (f x) = f x)
    (G : HVar × HVar → Prop) [DecidablePred G]
    (ps : List (HVar × HVar)) (m : HHMap) (w1 w2 : HVar) :
    hmGet (ps.foldl (fun acc p => if G p then op acc p.1 p.2 else acc) m) w1 w2 =
      if (w1, w2) ∈ ps ∧ G (w1, w2) then f (hmGet m w1 w2)
      else hmGet m w1 w2 := by
  induction ps generalizing m with
  | nil => simp
  | cons p rest ih =>
      rw [List.foldl_cons, ih]
      by_cases hGp : G p
      · rw [if_pos hGp]
        by_cases hpw : w1 = p.1 ∧ w2 = p.2
        · have hpeq : (w1, w2) = p := by
            obtain ⟨h1, h2⟩ := hpw
            cases p
            simp_all
          have hGw : G (w1, w2) := by rw [hpeq]; exact hGp
          have hA : hmGet (op m p.1 p.2) w1 w2 = f (hmGet m w1 w2) := by
            rw [hop, if_pos hpw, hpw.1, hpw.2]
          by_cases hmem : (w1, w2) ∈ rest
          · rw [if_pos ⟨hmem, hGw⟩, hA, hf,
              if_pos ⟨List.mem_cons_of_mem p hmem, hGw⟩]
          · rw [if_neg (fun hc => hmem hc.1), hA,
              if_pos ⟨by rw [hpeq]; exact List.mem_cons_self p rest, hGw⟩]
        · have hA : hmGet (op m p.1 p.2) w1 w2 = hmGet m w1 w2 := by
            rw [hop, if_neg hpw]
          by_cases hmem : (w1, w2) ∈ rest ∧ G (w1, w2)
          · rw [if_pos hmem, hA, if_pos ⟨List.mem_cons_of_mem p hmem.1, hmem.2⟩]
          · rw [if_neg hmem, hA, if_neg ?_]
            rintro ⟨hin, hG⟩
            rcases List.mem_cons.mp hin with h | h
            · exact hpw ⟨congrArg Prod.fst h, congrArg Prod.snd h⟩
            · exact hmem ⟨h, hG⟩
      · rw [if_neg hGp]
        by_cases hmem : (w1, w2) ∈ rest ∧ G (w1, w2)
        · rw [if_pos hmem, if_pos ⟨List.mem_cons_of_mem p hmem.1, hmem.2⟩]
        · rw [if_neg hmem, if_neg ?_]
          rintro ⟨hin, hG⟩
          rcases List.mem_cons.mp hin with h | h
          · exact hGp (by rw [← h]; exact hG)
          · exact hmem ⟨h, hG⟩

theorem foldl_guard_rowsOk
    (op : HHMap → HVar → HVar → HHMap)
    (hop : ∀ m a b, rowsOk m → rowsOk (op m a b))
    (G : HVar × HVar → Prop) [DecidablePred G]
    (ps : List (HVar × HVar)) (m : HHMap) (h : rowsOk m) :
    rowsOk (ps.foldl (fun acc p => if G p then op acc p.1 p.2 else acc) m) := by
  induction ps generalizing m with
  | nil => exact h
  | cons p rest ih =>
      rw [List.foldl_cons]
      by_cases hGp : G p
      · rw [if_pos hGp]
        exact ih _ (hop m p.1 p.2 h)
      · rw [if_neg hGp]
        exact ih _ h

/-- The unordered pair iteration of the `set_objective` /
`add_constraint` / `remove_constraint` loops: `v1` over the component's
variable set, `v2` over the same set. -/
def varPairs (vs : List HVar) : List (HVar × HVar) :=
  vs.flatMap (fun a => vs.map (fun b => (a, b)))

theorem mem_varPairs (vs : List HVar) (w1 w2 : HVar) :
    (w1, w2) ∈ varPairs vs ↔ w1 ∈ vs ∧ w2 ∈ vs := by
  simp only [varPairs, List.mem_flatMap, List.mem_map, Prod.mk.injEq]
  constructor
  · rintro ⟨a, ha, b, hb, h1, h2⟩
    exact ⟨h1 ▸ ha, h2 ▸ hb⟩
  · rintro ⟨h1, h2⟩
    exact ⟨w1, h1, w2, h2, rfl, rfl⟩

/-- Does component `C` put the pair `(v1, v2)` into the Hessian map?
Both variables are drawn from `C`'s variable set, the pair is
lower-triangular (`v2->index <= v1->index`) and `C`'s expression has
`has_ad2(v1, v2)`. -/
def contrib (c : HCon) (v1 v2 : HVar) : Prop :=
  v1 ∈ c.vars ∧ v2 ∈ c.vars ∧ v2.index ≤ v1.index ∧ c.hasAd2 v1 v2

instance (c : HCon) (v1 v2 : HVar) : Decidable (contrib c v1 v2) := by
  unfold contrib
  infer_instance

/-- The install double loop of `set_objective` (second half) and
`add_constraint`. -/
def installComp (m : HHMap) (k : HKind) (c : HCon) : HHMap :=
  (varPairs c.vars).foldl
    (fun acc p =>
      if p.2.index ≤ p.1.index ∧ c.hasAd2 p.1 p.2 then
        hmInsert acc p.1 p.2 k c.id
      else acc) m

/-- The removal double loop of `set_objective` (first half) and
`remove_constraint`. -/
def removeComp (m : HHMap) (k : HKind) (c : HCon) : HHMap :=
  (varPairs c.vars).foldl
    (fun acc p =>
      if p.2.index ≤ p.1.index ∧ c.hasAd2 p.1 p.2 then
        hmRemove acc p.1 p.2 k c.id
      else acc) m

theorem insF_idem (k : HKind) (cid : ℕ) (o : Option HEntry) :
    insF k cid (insF k cid o) = insF k cid o := by
  unfold insF
  cases k <;> simp [HEntry.insertK]

theorem remF_idem (k : HKind) (cid : ℕ) (o : Option HEntry) :
    remF k cid (remF k cid o) = remF k cid o := by
  unfold remF
  by_cases h : (o.getD HEntry.empty).eraseK k cid = HEntry.empty
  · rw [if_pos h]
    have : (HEntry.empty.eraseK k cid) = HEntry.empty := by
      cases k <;> simp [HEntry.eraseK, HEntry.empty]
    simp [Option.getD, this]
  · rw [if_neg h]
    have hidem : ((o.getD HEntry.empty).eraseK k cid).eraseK k cid =
        (o.getD HEntry.empty).eraseK k cid := by
      cases k <;> simp [HEntry.eraseK]
    simp only [Option.getD_some, hidem, if_neg h]

theorem hmGet_installComp (m : HHMap) (k : HKind) (c : HCon) (w1 w2 : HVar) :
    hmGet (installComp m k c) w1 w2 =
      if contrib c w1 w2 then insF k c.id (hmGet m w1 w2)
      else hmGet m w1 w2 := by
  unfold installComp
  rw [foldl_guard_pointwise (fun m a b => hmInsert m a b k c.id) (insF k c.id)
    (fun m a b w1 w2 => hmGet_hmInsert m a b k c.id w1 w2)
    (insF_idem k c.id)
    (fun p => p.2.index ≤ p.1.index ∧ c.hasAd2 p.1 p.2)
    (varPairs c.vars) m w1 w2]
  by_cases h : contrib c w1 w2
  · rw [if_pos h, if_pos ?_]
    obtain ⟨h1, h2, h3, h4⟩ := h
    exact ⟨(mem_varPairs c.vars w1 w2).mpr ⟨h1, h2⟩, h3, h4⟩
  · rw [if_neg h, if_neg ?_]
    rintro ⟨hin, h3, h4⟩
    obtain ⟨h1, h2⟩ := (mem_varPairs c.vars w1 w2).mp hin
    exact h ⟨h1, h2, h3, h4⟩

theorem hmGet_removeComp (m : HHMap) (k : HKind) (c : HCon) (w1 w2 : HVar) :
    hmGet (removeComp m k c) w1 w2 =
      if contrib c w1 w2 then remF k c.id (hmGet m w1 w2)
      else hmGet m w1 w2 := by
  unfold removeComp
  rw [foldl_guard_pointwise (fun m a b => hmRemove m a b k c.id) (remF k c.id)
    (fun m a b w1 w2 => hmGet_hmRemove m a b k c.id w1 w2)
    (remF_idem k c.id)
    (fun p => p.2.index ≤ p.1.index ∧ c.hasAd2 p.1 p.2)
    (varPairs c.vars) m w1 w2]
  by_cases h : contrib c w1 w2
  · rw [if_pos h, if_pos ?_]
    obtain ⟨h1, h2, h3, h4⟩ := h
    exact ⟨(mem_varPairs c.vars w1 w2).mpr ⟨h1, h2⟩, h3, h4⟩
  · rw [if_neg h, if_neg ?_]
    rintro ⟨hin, h3, h4⟩
    obtain ⟨h1, h2⟩ := (mem_varPairs c.vars w1 w2).mp hin
    exact h ⟨h1, h2, h3, h4⟩

theorem rowsOk_installComp (m : HHMap) (k : HKind) (c : HCon)
    (h : rowsOk m) : rowsOk (installComp m k c) :=
  foldl_guard_rowsOk _ (fun m a b hm => rowsOk_hmInsert m a b k c.id hm) _ _ m h

theorem rowsOk_removeComp (m : HHMap) (k : HKind) (c : HCon)
    (h : rowsOk m) : rowsOk (removeComp m k c) :=
  foldl_guard_rowsOk _ (fun m a b hm => rowsOk_hmRemove m a b k c.id hm) _ _ m h

end WntrAml

namespace WntrAml

/-- The part of the `IpoptModel` state the Hessian maintenance acts on:
the current objective, the constraint list and the Hessian map. -/
structure IModel where
  obj : Option HCon
  cons : List HCon
  hmap : HHMap

/-- `IpoptModel::set_objective`: if an objective is installed, walk its
variable-pair square removing its `"obj"` contributions (with pruning);
then store the new objective and walk its square inserting under
`"obj"`. -/
def setObjective (st : IModel) (o : HCon) : IModel :=
  { obj := some o
    cons := st.cons
    hmap :=
      installComp
        (match st.obj with
          | none => st.hmap
          | some old => removeComp st.hmap .obj old) .obj o }

/-- `IpoptModel::add_constraint`: `cons.push_back(con)`, then install the
constraint's contributions under `"cons"`. -/
def addConstraint (st : IModel) (c : HCon) : IModel :=
  { obj := st.obj
    cons := st.cons ++ [c]
    hmap := installComp st.hmap .cons c }

/-- `IpoptModel::remove_constraint`: erase the `cons` element at position
`con->index`, then remove the constraint's `"cons"` contributions with
pruning. -/
def removeConstraint (st : IModel) (c : HCon) : IModel :=
  { obj := st.obj
    cons := st.cons.eraseIdx c.index.toNat
    hmap := removeComp st.hmap .cons c }

/-- A freshly constructed `IpoptModel`: no objective, no constraints,
empty Hessian map. -/
def initModel : IModel := ⟨none, [], []⟩

/-- One model mutation, with no precondition at all. -/
inductive IStep : IModel → IModel → Prop where
  | setObj (st : IModel) (o : HCon) : IStep st (setObjective st o)
  | addCon (st : IModel) (c : HCon) : IStep st (addConstraint st c)
  | rmCon (st : IModel) (c : HCon) : IStep st (removeConstraint st c)

/-- States reachable from a fresh model by arbitrary mutation calls. -/
def IReach (st : IModel) : Prop := Relation.ReflTransGen IStep initModel st

/-- One model mutation under the well-formed-usage preconditions:
`add_constraint` is only called with a constraint that is not already
installed, and `remove_constraint` only with an installed constraint
whose `index` field is its position in the constraint list. -/
inductive WStep : IModel → IModel → Prop where
  | setObj (st : IModel) (o : HCon) : WStep st (setObjective st o)
  | addCon (st : IModel) (c : HCon) (h : ∀ d ∈ st.cons, d.id ≠ c.id) :
      WStep st (addConstraint st c)
  | rmCon (st : IModel) (c : HCon) (h0 : 0 ≤ c.index)
      (h : st.cons.get? c.index.toNat = some c) :
      WStep st (removeConstraint st c)

/-- States reachable from a fresh model by well-formed mutation calls. -/
def WReach (st : IModel) : Prop := Relation.ReflTransGen WStep initModel st

/-- The `"obj"` contributor set a state should have at `(v1, v2)`. -/
def objContrib (st : IModel) (v1 v2 : HVar) : Finset ℕ :=
  match st.obj with
  | none => ∅
  | some o => if contrib o v1 v2 then {o.id} else ∅

/-- The `"cons"` contributor set a state should have at `(v1, v2)`. -/
def consContrib (st : IModel) (v1 v2 : HVar) : Finset ℕ :=
  ((st.cons.filter (fun c => decide (contrib c v1 v2))).map HCon.id).toFinset

/-- The cell the Hessian map should hold at `(v1, v2)`: the contributor
sets when at least one contributor exists, absent otherwise. -/
def hessSpec (st : IModel) (v1 v2 : HVar) : Option HEntry :=
  if (⟨objContrib st v1 v2, consContrib st v1 v2⟩ : HEntry) = HEntry.empty then none
  else some ⟨objContrib st v1 v2, consContrib st v1 v2⟩

/-- Installed constraints have pairwise distinct identities. -/
def NodupIds (st : IModel) : Prop := (st.cons.map HCon.id).Nodup

/-- The maintained invariant: distinct constraint identities, every cell
equal to its specified contributor sets, and no empty rows. -/
def Inv (st : IModel) : Prop :=
  NodupIds st ∧ (∀ v1 v2, hmGet st.hmap v1 v2 = hessSpec st v1 v2) ∧ rowsOk st.hmap

theorem mem_consContrib (st : IModel) (v1 v2 : HVar) (i : ℕ) :
    i ∈ consContrib st v1 v2 ↔ ∃ c ∈ st.cons, contrib c v1 v2 ∧ c.id = i := by
  simp only [consContrib, List.mem_toFinset, List.mem_map, List.mem_filter,
    decide_eq_true_eq]
  constructor
  · rintro ⟨c, ⟨hc, hcontrib⟩, hid⟩
    exact ⟨c, hc, hcontrib, hid⟩
  · rintro ⟨c, hc, hcontrib, hid⟩
    exact ⟨c, ⟨hc, hcontrib⟩, hid⟩

theorem Inv_initModel : Inv initModel := by
  refine ⟨by simp [NodupIds, initModel], ?_, ?_⟩
  · intro v1 v2
    show (none : Option HEntry) = hessSpec initModel v1 v2
    rw [hessSpec, if_pos]
    show (⟨objContrib initModel v1 v2, consContrib initModel v1 v2⟩ : HEntry) =
      HEntry.empty
    rfl
  · intro v1 row h
    cases h

end WntrAml

namespace WntrAml

theorem objContrib_addConstraint (st : IModel) (c : HCon) (v1 v2 : HVar) :
    objContrib (addConstraint st c) v1 v2 = objContrib st v1 v2 := rfl

theorem consContrib_addConstraint (st : IModel) (c : HCon) (v1 v2 : HVar) :
    consContrib (addConstraint st c) v1 v2 =
      if contrib c v1 v2 then insert c.id (consContrib st v1 v2)
      else consContrib st v1 v2 := by
  apply Finset.ext
  intro i
  rw [mem_consContrib]
  show (∃ d ∈ st.cons ++ [c], contrib d v1 v2 ∧ d.id = i) ↔ _
  by_cases h : contrib c v1 v2
  · rw [if_pos h, Finset.mem_insert, mem_consContrib]
    constructor
    · rintro ⟨d, hd, hcon, hid⟩
      rcases List.mem_append.mp hd with hd | hd
      · exact Or.inr ⟨d, hd, hcon, hid⟩
      · rw [List.mem_singleton] at hd
        subst hd
        exact Or.inl hid.symm
    · rintro (hid | ⟨d, hd, hcon, hid⟩)
      · exact ⟨c, List.mem_append_right _ (List.mem_singleton_self c), h, hid.symm⟩
      · exact ⟨d, List.mem_append_left _ hd, hcon, hid⟩
  · rw [if_neg h, mem_consContrib]
    constructor
    · rintro ⟨d, hd, hcon, hid⟩
      rcases List.mem_append.mp hd with hd | hd
      · exact ⟨d, hd, hcon, hid⟩
      · rw [List.mem_singleton] at hd
        subst hd
        exact absurd hcon h
    · rintro ⟨d, hd, hcon, hid⟩
      exact ⟨d, List.mem_append_left _ hd, hcon, hid⟩

theorem Inv_addConstraint (st : IModel) (c : HCon) (hInv : Inv st)
    (hfresh : ∀ d ∈ st.cons, d.id ≠ c.id) : Inv (addConstraint st c) := by
  obtain ⟨hnd, hmapEq, hrows⟩ := hInv
  refine ⟨?_, ?_, rowsOk_installComp st.hmap .cons c hrows⟩
  · show ((st.cons ++ [c]).map HCon.id).Nodup
    rw [List.map_append, List.nodup_append]
    refine ⟨hnd, by simp, ?_⟩
    intro i hi hj
    rw [List.map_singleton, List.mem_singleton] at hj
    rw [List.mem_map] at hi
    obtain ⟨d, hd, hdi⟩ := hi
    exact hfresh d hd (by rw [hdi, hj])
  · intro v1 v2
    show hmGet (installComp st.hmap .cons c) v1 v2 = _
    rw [hmGet_installComp, hmapEq]
    rw [show hessSpec (addConstraint st c) v1 v2 =
        (if (⟨objContrib st v1 v2,
              if contrib c v1 v2 then insert c.id (consContrib st v1 v2)
              else consContrib st v1 v2⟩ : HEntry) = HEntry.empty then none
          else some ⟨objContrib st v1 v2,
              if contrib c v1 v2 then insert c.id (consContrib st v1 v2)
              else consContrib st v1 v2⟩) from by
      rw [hessSpec, objContrib_addConstraint, consContrib_addConstraint]]
    by_cases h : contrib c v1 v2
    · rw [if_pos h, if_pos h]
      rw [if_neg (by
        intro hE
        rw [HEntry.mk.injEq] at hE
        exact Finset.insert_ne_empty c.id (consContrib st v1 v2) hE.2)]
      rw [hessSpec]
      by_cases hE : (⟨objContrib st v1 v2, consContrib st v1 v2⟩ : HEntry) =
          HEntry.empty
      · rw [if_pos hE]
        rw [HEntry.mk.injEq] at hE
        rw [insF]
        show some (HEntry.empty.insertK HKind.cons c.id) = _
        refine congrArg some ?_
        rw [HEntry.mk.injEq]
        exact ⟨hE.1.symm, by rw [hE.2]; rfl⟩
      · rw [if_neg hE, insF]
        rfl
    · rw [if_neg h, if_neg h, hessSpec]

end WntrAml

namespace WntrAml

theorem objContrib_removeConstraint (st : IModel) (c : HCon) (v1 v2 : HVar) :
    objContrib (removeConstraint st c) v1 v2 = objContrib st v1 v2 := rfl

theorem cons_decomp_of_get? (st : IModel) (c : HCon)
    (hpos : st.cons.get? c.index.toNat = some c) :
    st.cons = st.cons.take c.index.toNat ++ c :: st.cons.drop (c.index.toNat + 1) ∧
      st.cons.eraseIdx c.index.toNat =
        st.cons.take c.index.toNat ++ st.cons.drop (c.index.toNat + 1) := by
  rw [List.get?_eq_some] at hpos
  obtain ⟨hlt, hget⟩ := hpos
  have hget' : st.cons[c.index.toNat] = c := by
    rw [List.get_eq_getElem] at hget
    exact hget
  constructor
  · conv_lhs => rw [← List.take_append_drop c.index.toNat st.cons]
    rw [List.drop_eq_getElem_cons hlt, hget']
  · exact List.eraseIdx_eq_take_drop_succ st.cons c.index.toNat

theorem not_mem_eraseIdx_of_nodup (st : IModel) (c : HCon)
    (hnd : NodupIds st) (hpos : st.cons.get? c.index.toNat = some c) :
    ∀ d ∈ st.cons.eraseIdx c.index.toNat, d.id ≠ c.id := by
  obtain ⟨hdec, herase⟩ := cons_decomp_of_get? st c hpos
  intro d hd hid
  rw [herase] at hd
  have hnd' : ((st.cons.take c.index.toNat ++ c :: st.cons.drop (c.index.toNat + 1)).map
      HCon.id).Nodup := by
    rw [← hdec]; exact hnd
  rw [List.map_append, List.map_cons, List.nodup_append] at hnd'
  rcases List.mem_append.mp hd with hd | hd
  · exact hnd'.2.2 (List.mem_map.mpr ⟨d, hd, hid⟩) (List.mem_cons_self _ _)
  · exact (List.nodup_cons.mp hnd'.2.1).1
      (by rw [← hid]; exact List.mem_map.mpr ⟨d, hd, rfl⟩)

theorem mem_eraseIdx_iff_of_nodup (st : IModel) (c : HCon)
    (hnd : NodupIds st) (hpos : st.cons.get? c.index.toNat = some c) (d : HCon) :
    d ∈ st.cons.eraseIdx c.index.toNat ↔ d ∈ st.cons ∧ d.id ≠ c.id := by
  obtain ⟨hdec, herase⟩ := cons_decomp_of_get? st c hpos
  constructor
  · intro hd
    refine ⟨(List.eraseIdx_sublist st.cons c.index.toNat).mem hd,
      not_mem_eraseIdx_of_nodup st c hnd hpos d hd⟩
  · rintro ⟨hd, hid⟩
    rw [herase]
    conv at hd => rw [hdec]
    rcases List.mem_append.mp hd with hd | hd
    · exact List.mem_append_left _ hd
    · rcases List.mem_cons.mp hd with hd | hd
      · exact absurd (by rw [hd]) hid
      · exact List.mem_append_right _ hd

theorem consContrib_removeConstraint (st : IModel) (c : HCon) (v1 v2 : HVar)
    (hnd : NodupIds st) (hpos : st.cons.get? c.index.toNat = some c) :
    consContrib (removeConstraint st c) v1 v2 =
      if contrib c v1 v2 then (consContrib st v1 v2).erase c.id
      else consContrib st v1 v2 := by
  have huniq : ∀ d ∈ st.cons, d.id = c.id → d = c := by
    intro d hd hid
    exact List.inj_on_of_nodup_map hnd hd (List.get?_mem hpos) hid
  apply Finset.ext
  intro i
  rw [mem_consContrib]
  show (∃ d ∈ st.cons.eraseIdx c.index.toNat, contrib d v1 v2 ∧ d.id = i) ↔ _
  by_cases h : contrib c v1 v2
  · rw [if_pos h, Finset.mem_erase, mem_consContrib]
    constructor
    · rintro ⟨d, hd, hcon, hid⟩
      have hmem := (mem_eraseIdx_iff_of_nodup st c hnd hpos d).mp hd
      exact ⟨by rw [← hid]; exact hmem.2, d, hmem.1, hcon, hid⟩
    · rintro ⟨hne, d, hd, hcon, hid⟩
      refine ⟨d, (mem_eraseIdx_iff_of_nodup st c hnd hpos d).mpr
        ⟨hd, by rw [hid]; exact hne⟩, hcon, hid⟩
  · rw [if_neg h, mem_consContrib]
    constructor
    · rintro ⟨d, hd, hcon, hid⟩
      exact ⟨d, ((mem_eraseIdx_iff_of_nodup st c hnd hpos d).mp hd).1, hcon, hid⟩
    · rintro ⟨d, hd, hcon, hid⟩
      have hdc : d.id ≠ c.id := by
        intro he
        exact h (huniq d hd he ▸ hcon)
      exact ⟨d, (mem_eraseIdx_iff_of_nodup st c hnd hpos d).mpr ⟨hd, hdc⟩, hcon, hid⟩

theorem Inv_removeConstraint (st : IModel) (c : HCon) (hInv : Inv st)
    (hpos : st.cons.get? c.index.toNat = some c) : Inv (removeConstraint st c) := by
  obtain ⟨hnd, hmapEq, hrows⟩ := hInv
  refine ⟨?_, ?_, rowsOk_removeComp st.hmap .cons c hrows⟩
  · show ((st.cons.eraseIdx c.index.toNat).map HCon.id).Nodup
    exact ((List.eraseIdx_sublist st.cons c.index.toNat).map HCon.id).nodup hnd
  · intro v1 v2
    show hmGet (removeComp st.hmap .cons c) v1 v2 = _
    rw [hmGet_removeComp, hmapEq]
    rw [show hessSpec (removeConstraint st c) v1 v2 =
        (if (⟨objContrib st v1 v2,
              if contrib c v1 v2 then (consContrib st v1 v2).erase c.id
              else consContrib st v1 v2⟩ : HEntry) = HEntry.empty then none
          else some ⟨objContrib st v1 v2,
              if contrib c v1 v2 then (consContrib st v1 v2).erase c.id
              else consContrib st v1 v2⟩) from by
      rw [hessSpec, objContrib_removeConstraint,
        consContrib_removeConstraint st c v1 v2 hnd hpos]]
    by_cases h : contrib c v1 v2
    · rw [if_pos h, if_pos h]
      have hcid : c.id ∈ consContrib st v1 v2 :=
        (mem_consContrib st v1 v2 c.id).mpr ⟨c, List.get?_mem hpos, h, rfl⟩
      have hEne : (⟨objContrib st v1 v2, consContrib st v1 v2⟩ : HEntry) ≠
          HEntry.empty := by
        intro hE
        rw [HEntry.mk.injEq] at hE
        rw [hE.2] at hcid
        exact Finset.not_mem_empty c.id hcid
      rw [hessSpec, if_neg hEne, remF]
      rfl
    · rw [if_neg h, if_neg h, hessSpec]

end WntrAml

namespace WntrAml

theorem objContrib_none (st : IModel) (v1 v2 : HVar) (h : st.obj = none) :
    objContrib st v1 v2 = ∅ := by
  unfold objContrib
  rw [h]

theorem objContrib_some (st : IModel) (o : HCon) (v1 v2 : HVar) (h : st.obj = some o) :
    objContrib st v1 v2 = (if contrib o v1 v2 then {o.id} else ∅) := by
  unfold objContrib
  rw [h]

theorem Inv_setObjective (st : IModel) (o : HCon) (hInv : Inv st) :
    Inv (setObjective st o) := by
  obtain ⟨hnd, hmapEq, hrows⟩ := hInv
  set m1 := (match st.obj with
    | none => st.hmap
    | some old => removeComp st.hmap HKind.obj old) with hm1
  have hrows1 : rowsOk m1 := by
    rw [hm1]
    cases st.obj with
    | none => exact hrows
    | some old => exact rowsOk_removeComp st.hmap .obj old hrows
  have hmid : ∀ v1 v2, hmGet m1 v1 v2 =
      (if (⟨(∅ : Finset ℕ), consContrib st v1 v2⟩ : HEntry) = HEntry.empty then none
       else some ⟨∅, consContrib st v1 v2⟩) := by
    intro v1 v2
    cases hobj : st.obj with
    | none =>
        have hme : m1 = st.hmap := by rw [hm1, hobj]
        rw [hme, hmapEq, hessSpec, objContrib_none st v1 v2 hobj]
    | some old =>
        have hme : m1 = removeComp st.hmap HKind.obj old := by rw [hm1, hobj]
        rw [hme, hmGet_removeComp]
        by_cases hco : contrib old v1 v2
        · rw [if_pos hco, hmapEq, hessSpec, objContrib_some st old v1 v2 hobj,
            if_pos hco]
          rw [if_neg (by
            intro hE
            rw [HEntry.mk.injEq] at hE
            exact Finset.singleton_ne_empty old.id hE.1)]
          rw [remF]
          have he : (((some (⟨{old.id}, consContrib st v1 v2⟩ : HEntry)).getD
              HEntry.empty).eraseK HKind.obj old.id) =
              (⟨∅, consContrib st v1 v2⟩ : HEntry) := by
            show (⟨({old.id} : Finset ℕ).erase old.id,
              consContrib st v1 v2⟩ : HEntry) = _
            rw [HEntry.mk.injEq]
            exact ⟨Finset.erase_singleton old.id, rfl⟩
          rw [he]
        · rw [if_neg hco, hmapEq, hessSpec, objContrib_some st old v1 v2 hobj,
            if_neg hco]
  refine ⟨hnd, ?_, rowsOk_installComp m1 HKind.obj o hrows1⟩
  intro v1 v2
  show hmGet (installComp m1 HKind.obj o) v1 v2 = _
  rw [hmGet_installComp, hmid]
  have hA' : objContrib (setObjective st o) v1 v2 =
      (if contrib o v1 v2 then {o.id} else ∅) := by
    unfold objContrib
    rfl
  have hB' : consContrib (setObjective st o) v1 v2 = consContrib st v1 v2 := rfl
  rw [show hessSpec (setObjective st o) v1 v2 =
      (if (⟨(if contrib o v1 v2 then {o.id} else ∅),
            consContrib st v1 v2⟩ : HEntry) = HEntry.empty then none
       else some ⟨(if contrib o v1 v2 then {o.id} else ∅),
            consContrib st v1 v2⟩) from by rw [hessSpec, hA', hB']]
  by_cases hco : contrib o v1 v2
  · rw [if_pos hco, if_pos hco]
    by_cases hBe : (⟨(∅ : Finset ℕ), consContrib st v1 v2⟩ : HEntry) = HEntry.empty
    · rw [if_pos hBe, insF]
      rw [if_neg (by
        intro hE
        rw [HEntry.mk.injEq] at hE
        exact Finset.singleton_ne_empty o.id hE.1)]
      rw [HEntry.mk.injEq] at hBe
      refine congrArg some ?_
      show (⟨insert o.id ∅, (∅ : Finset ℕ)⟩ : HEntry) = _
      rw [HEntry.mk.injEq]
      exact ⟨by simp, hBe.2.symm⟩
    · rw [if_neg hBe, insF]
      rw [if_neg (by
        intro hE
        rw [HEntry.mk.injEq] at hE
        exact Finset.singleton_ne_empty o.id hE.1)]
      refine congrArg some ?_
      show (⟨insert o.id ∅, consContrib st v1 v2⟩ : HEntry) = _
      rw [HEntry.mk.injEq]
      exact ⟨by simp, rfl⟩
  · rw [if_neg hco, if_neg hco]

end WntrAml


namespace WntrAml

theorem Inv_of_WReach (st : IModel) (h : WReach st) : Inv st := by
  unfold WReach at h
  induction h with
  | refl => exact Inv_initModel
  | tail hsteps hstep ih =>
      cases hstep with
      | setObj o => exact Inv_setObjective _ o ih
      | addCon c hfresh => exact Inv_addConstraint _ c ih hfresh
      | rmCon c h0 hpos => exact Inv_removeConstraint _ c ih hpos

/-- Lower-triangularity of the key set of a Hessian map. -/
def lowerTri (m : HHMap) : Prop :=
  ∀ v1 v2, hmGet m v1 v2 ≠ none → v2.index ≤ v1.index

theorem lowerTri_installComp (m : HHMap) (k : HKind) (c : HCon)
    (h : lowerTri m) : lowerTri (installComp m k c) := by
  intro v1 v2 hsome
  rw [hmGet_installComp] at hsome
  by_cases hc : contrib c v1 v2
  · exact hc.2.2.1
  · rw [if_neg hc] at hsome
    exact h v1 v2 hsome

theorem lowerTri_removeComp (m : HHMap) (k : HKind) (c : HCon)
    (h : lowerTri m) : lowerTri (removeComp m k c) := by
  intro v1 v2 hsome
  rw [hmGet_removeComp] at hsome
  by_cases hc : contrib c v1 v2
  · exact hc.2.2.1
  · rw [if_neg hc] at hsome
    exact h v1 v2 hsome

theorem lowerTri_setObjective (st : IModel) (o : HCon)
    (h : lowerTri st.hmap) : lowerTri (setObjective st o).hmap := by
  show lowerTri (installComp _ HKind.obj o)
  apply lowerTri_installComp
  cases st.obj with
  | none => exact h
  | some old => exact lowerTri_removeComp st.hmap HKind.obj old h

theorem lowerTri_of_IReach (st : IModel) (h : IReach st) : lowerTri st.hmap := by
  unfold IReach at h
  induction h with
  | refl =>
      intro v1 v2 hsome
      exact absurd rfl hsome
  | tail hsteps hstep ih =>
      cases hstep with
      | setObj o => exact lowerTri_setObjective _ o ih
      | addCon c => exact lowerTri_installComp _ HKind.cons c ih
      | rmCon c => exact lowerTri_removeComp _ HKind.cons c ih

end WntrAml

namespace WntrAml

/-- **C2.** For every model state reachable by any sequence of
`set_objective`, `add_constraint` and `remove_constraint` calls, every
`(v1, v2)` key present in `hessian_map` satisfies
`v2->index <= v1->index`: new cells are only created under the loop
guard `ptr_to_var2->index <= ptr_to_var1->index`, and removals never
create keys. -/
theorem hessian_map_lower_triangular (st : IModel) (h : IReach st)
    (v1 v2 : HVar) (hkey : hmGet st.hmap v1 v2 ≠ none) :
    v2.index ≤ v1.index :=
  lowerTri_of_IReach st h v1 v2 hkey

/-- Witness for C2: adding the constraint with variable set `{x}`
(`x.index = 0`) to a fresh model puts the key `(x, x)` in the map, and
the theorem yields `x.index ≤ x.index`. -/
theorem hessian_map_lower_triangular_witness :
    (⟨0, 0⟩ : HVar).index ≤ (⟨0, 0⟩ : HVar).index :=
  hessian_map_lower_triangular
    (addConstraint initModel ⟨5, 0, [⟨0, 0⟩], fun _ _ => true, fun _ => 0⟩)
    (Relation.ReflTransGen.single
      (IStep.addCon initModel ⟨5, 0, [⟨0, 0⟩], fun _ _ => true, fun _ => 0⟩))
    ⟨0, 0⟩ ⟨0, 0⟩ (by decide)

/-- **C1 (counterexample to the claim over arbitrary sequences).**
Take `x` with index 0 and a constraint `c` (id 5, `index = 0`,
variable set `{x}`, `has_ad2 ≡ true`).  The call sequence
`add_constraint(c); add_constraint(c); remove_constraint(c)` leaves `c`
installed (the list still contains it once) while `remove_constraint`
erased its Hessian contributions entirely — the `"cons"` contributor
sets are `std::set`s, so the duplicate installation collapsed.  The
installed component `c` has `has_ad2(x, x)` true with `x` drawn from its
variable set and `x.index ≤ x.index`, yet the map holds no `(x, x)`
key: the claimed equivalence fails after this sequence. -/
theorem hessian_map_duplicate_add_counterexample :
    (removeConstraint (addConstraint (addConstraint initModel
        ⟨5, 0, [⟨0, 0⟩], fun _ _ => true, fun _ => 0⟩)
        ⟨5, 0, [⟨0, 0⟩], fun _ _ => true, fun _ => 0⟩)
        ⟨5, 0, [⟨0, 0⟩], fun _ _ => true, fun _ => 0⟩).cons =
      [⟨5, 0, [⟨0, 0⟩], fun _ _ => true, fun _ => 0⟩] ∧
    contrib ⟨5, 0, [⟨0, 0⟩], fun _ _ => true, fun _ => 0⟩ ⟨0, 0⟩ ⟨0, 0⟩ ∧
    hmGet (removeConstraint (addConstraint (addConstraint initModel
        ⟨5, 0, [⟨0, 0⟩], fun _ _ => true, fun _ => 0⟩)
        ⟨5, 0, [⟨0, 0⟩], fun _ _ => true, fun _ => 0⟩)
        ⟨5, 0, [⟨0, 0⟩], fun _ _ => true, fun _ => 0⟩).hmap ⟨0, 0⟩ ⟨0, 0⟩ = none := by
  refine ⟨rfl, ?_, by decide⟩
  exact ⟨List.mem_singleton_self _, List.mem_singleton_self _, le_refl _, rfl⟩

/-- **C1 (amended).**  After any sequence of `set_objective`,
`add_constraint`, `remove_constraint` calls in which every
`add_constraint` installs a constraint that is not already installed and
every `remove_constraint` removes an installed constraint whose `index`
field equals its position in the constraint list, the Hessian map holds
a `(v1, v2)` key exactly when some currently installed component `C` has
`C.has_ad2(v1, v2)` true for `v1, v2` drawn from `C`'s variable set with
`v2.index ≤ v1.index` (the loop guard); a present cell's `"obj"` set
holds exactly the current objective when it so contributes and its
`"cons"` set exactly the installed constraints that so contribute
(each mutation first removes the outgoing component's contributions,
then installs the incoming ones); cells with both contributor sets
empty and empty rows are pruned. -/
theorem hessian_map_matches_installed_contributors (st : IModel) (h : WReach st) :
    (∀ v1 v2, hmGet st.hmap v1 v2 ≠ none ↔
      ((∃ o, st.obj = some o ∧ contrib o v1 v2) ∨
        (∃ c ∈ st.cons, contrib c v1 v2))) ∧
    (∀ v1 v2 e, hmGet st.hmap v1 v2 = some e →
      e ≠ HEntry.empty ∧
      (∀ i, i ∈ e.obj ↔ ∃ o, st.obj = some o ∧ contrib o v1 v2 ∧ o.id = i) ∧
      (∀ i, i ∈ e.cons ↔ ∃ c ∈ st.cons, contrib c v1 v2 ∧ c.id = i)) ∧
    rowsOk st.hmap := by
  obtain ⟨hnd, hmapEq, hrows⟩ := Inv_of_WReach st h
  refine ⟨?_, ?_, hrows⟩
  · intro v1 v2
    rw [hmapEq, hessSpec]
    by_cases hE : (⟨objContrib st v1 v2, consContrib st v1 v2⟩ : HEntry) = HEntry.empty
    · rw [if_pos hE]
      rw [HEntry.mk.injEq] at hE
      constructor
      · intro hne
        exact absurd rfl hne
      · rintro (⟨o, hobj, hco⟩ | ⟨c, hc, hco⟩)
        · have hsing : objContrib st v1 v2 = {o.id} := by
            rw [objContrib_some st o v1 v2 hobj, if_pos hco]
          rw [hsing] at hE
          exact (Finset.singleton_ne_empty o.id hE.1).elim
        · have hmem : c.id ∈ consContrib st v1 v2 :=
            (mem_consContrib st v1 v2 c.id).mpr ⟨c, hc, hco, rfl⟩
          rw [hE.2] at hmem
          exact (Finset.not_mem_empty c.id hmem).elim
    · rw [if_neg hE]
      constructor
      · intro _
        by_cases hA : objContrib st v1 v2 = ∅
        · have hB : consContrib st v1 v2 ≠ ∅ := by
            intro hB
            exact hE (by rw [HEntry.mk.injEq]; exact ⟨hA, hB⟩)
          obtain ⟨i, hi⟩ := Finset.nonempty_iff_ne_empty.mpr hB
          obtain ⟨c, hc, hco, _⟩ := (mem_consContrib st v1 v2 i).mp hi
          exact Or.inr ⟨c, hc, hco⟩
        · cases hobj : st.obj with
          | none => exact absurd (objContrib_none st v1 v2 hobj) hA
          | some o =>
              rw [objContrib_some st o v1 v2 hobj] at hA
              by_cases hco : contrib o v1 v2
              · exact Or.inl ⟨o, rfl, hco⟩
              · rw [if_neg hco] at hA
                exact absurd rfl hA
      · intro _
        exact Option.some_ne_none _
  · intro v1 v2 e he
    rw [hmapEq, hessSpec] at he
    by_cases hE : (⟨objContrib st v1 v2, consContrib st v1 v2⟩ : HEntry) = HEntry.empty
    · rw [if_pos hE] at he
      cases he
    · rw [if_neg hE] at he
      have hee : e = ⟨objContrib st v1 v2, consContrib st v1 v2⟩ :=
        (Option.some.injEq _ _ ▸ he).symm
      subst hee
      refine ⟨hE, ?_, fun i => mem_consContrib st v1 v2 i⟩
      intro i
      show i ∈ objContrib st v1 v2 ↔ _
      cases hobj : st.obj with
      | none =>
          rw [objContrib_none st v1 v2 hobj]
          simp only [Finset.not_mem_empty, false_iff]
          rintro ⟨o, hobj', _⟩
          cases hobj'
      | some o =>
          rw [objContrib_some st o v1 v2 hobj]
          by_cases hco : contrib o v1 v2
          · rw [if_pos hco, Finset.mem_singleton]
            constructor
            · intro hi
              exact ⟨o, rfl, hco, hi.symm⟩
            · rintro ⟨o', hobj', _, hid⟩
              cases hobj'
              exact hid.symm
          · rw [if_neg hco]
            simp only [Finset.not_mem_empty, false_iff]
            rintro ⟨o', hobj', hco', _⟩
            cases hobj'
            exact hco hco'

/-- Witness for the amended C1: in the model reached by one well-formed
`add_constraint` of the constraint with variable `x` (index 0) and
`has_ad2 ≡ true`, the key `(x, x)` is present. -/
theorem hessian_map_matches_installed_contributors_witness :
    hmGet (addConstraint initModel
      ⟨5, 0, [⟨0, 0⟩], fun _ _ => true, fun _ => 0⟩).hmap ⟨0, 0⟩ ⟨0, 0⟩ ≠ none := by
  have h := hessian_map_matches_installed_contributors
    (addConstraint initModel ⟨5, 0, [⟨0, 0⟩], fun _ _ => true, fun _ => 0⟩)
    (Relation.ReflTransGen.single
      (WStep.addCon initModel ⟨5, 0, [⟨0, 0⟩], fun _ _ => true, fun _ => 0⟩
        (fun d hd => absurd hd (List.not_mem_nil d))))
  refine (h.1 ⟨0, 0⟩ ⟨0, 0⟩).mpr (Or.inr ?_)
  refine ⟨⟨5, 0, [⟨0, 0⟩], fun _ _ => true, fun _ => 0⟩, List.mem_singleton_self _, ?_⟩
  exact ⟨List.mem_singleton_self _, List.mem_singleton_self _, le_refl _, rfl⟩

end WntrAml

namespace WntrSim

/-! ### Compiled evaluator (wntr/sim/aml/evaluator.cpp / evaluator.hpp)

`double` values are `ℚ`; the transcendental library calls (`::pow`,
`::exp`, …) have no rational counterpart and are supplied as an
uninterpreted operation table `TransOps` (the claims under study are
structural and never depend on their values).  A leaf table
(`std::vector<Leaf*>`, dereferenced to `leaf->value` at evaluation
time) is a `List ℚ`.  The evaluation stack is a list; reading below the
stack base (possible in C++ for malformed programs) yields the junk
value 0, and an out-of-range leaf index likewise reads junk 0 — both
are undefined behaviour in C++ and are never exercised by programs the
theorems quantify over. -/

/-- Opcodes (evaluator.hpp): negative RPN entries. -/
def ADD : Int := -1
def SUB : Int := -2
def MUL : Int := -3
def DIV : Int := -4
def POW : Int := -5
def ABS : Int := -6
def SIGN : Int := -7
def IF_ELSE : Int := -8
def INEQUALITY : Int := -9
def EXP : Int := -10
def LOG : Int := -11
def NEGATION : Int := -12
def SIN : Int := -13
def COS : Int := -14
def TAN : Int := -15
def ASIN : Int := -16
def ACOS : Int := -17
def ATAN : Int := -18

/-- The two C++ exception classes thrown by the evaluator:
`StructureException` and `std::runtime_error`, each carrying a message. -/
inductive CppErr where
  | structureErr (msg : String)
  | runtimeErr (msg : String)
  deriving DecidableEq

/-- The transcendental calls of `_evaluate`, uninterpreted. -/
structure TransOps where
  pow : ℚ → ℚ → ℚ
  exp : ℚ → ℚ
  log : ℚ → ℚ
  sin : ℚ → ℚ
  cos : ℚ → ℚ
  tan : ℚ → ℚ
  asin : ℚ → ℚ
  acos : ℚ → ℚ
  atan : ℚ → ℚ

/-- A reverse-Polish program: non-negative entries are leaf-table
indices, negative entries are opcodes. -/
abbrev RPN := List Int

/-- Pop (`--stack_ndx; stack[stack_ndx]`); an empty stack reads junk 0. -/
def pop : List ℚ → ℚ × List ℚ
  | [] => (0, [])
  | x :: s => (x, s)

/-- One iteration of the `for` loop of `_evaluate`: push the leaf value
for a non-negative entry, else dispatch the opcode (in the order the
C++ if/else ladder tests them); an unrecognized opcode throws
`std::runtime_error("Operation not recognized")`. -/
def stepRPN (ops : TransOps) (values : List ℚ) (st : List ℚ) (ndx : Int) :
    Except CppErr (List ℚ) :=
  if 0 ≤ ndx then .ok (values.getD ndx.toNat 0 :: st)
  else if ndx = ADD then
    .ok (((pop (pop st).2).1 + (pop st).1) :: (pop (pop st).2).2)
  else if ndx = SUB then
    .ok (((pop (pop st).2).1 - (pop st).1) :: (pop (pop st).2).2)
  else if ndx = MUL then
    .ok (((pop (pop st).2).1 * (pop st).1) :: (pop (pop st).2).2)
  else if ndx = DIV then
    .ok (((pop (pop st).2).1 / (pop st).1) :: (pop (pop st).2).2)
  else if ndx = POW then
    .ok ((ops.pow (pop (pop st).2).1 (pop st).1) :: (pop (pop st).2).2)
  else if ndx = ABS then
    .ok ((|(pop st).1|) :: (pop st).2)
  else if ndx = SIGN then
    .ok ((if 0 ≤ (pop st).1 then (1 : ℚ) else -1) :: (pop st).2)
  else if ndx = IF_ELSE then
    .ok ((if (pop (pop (pop st).2).2).1 = 1 then (pop (pop st).2).1 else (pop st).1)
      :: (pop (pop (pop st).2).2).2)
  else if ndx = INEQUALITY then
    .ok ((if (pop (pop st).2).1 ≤ (pop (pop (pop st).2).2).1 ∧
            (pop (pop (pop st).2).2).1 ≤ (pop st).1 then (1 : ℚ) else 0)
      :: (pop (pop (pop st).2).2).2)
  else if ndx = EXP then
    .ok ((ops.exp (pop st).1) :: (pop st).2)
  else if ndx = LOG then
    .ok ((ops.log (pop st).1) :: (pop st).2)
  else if ndx = NEGATION then
    .ok ((-(pop st).1) :: (pop st).2)
  else if ndx = SIN then
    .ok ((ops.sin (pop st).1) :: (pop st).2)
  else if ndx = COS then
    .ok ((ops.cos (pop st).1) :: (pop st).2)
  else if ndx = TAN then
    .ok ((ops.tan (pop st).1) :: (pop st).2)
  else if ndx = ASIN then
    .ok ((ops.asin (pop st).1) :: (pop st).2)
  else if ndx = ACOS then
    .ok ((ops.acos (pop st).1) :: (pop st).2)
  else if ndx = ATAN then
    .ok ((ops.atan (pop st).1) :: (pop st).2)
  else
    .error (.runtimeErr "Operation not recognized")

/-- `_evaluate(stack, rpn, values)`: run the program on an empty stack
and return the final top of stack. -/
def _evaluate (ops : TransOps) (rpn : RPN) (values : List ℚ) : Except CppErr ℚ :=
  (rpn.foldlM (fun st ndx => stepRPN ops values st ndx) []).map (fun st => (pop st).1)

end WntrSim

namespace WntrSim

/-- A `Constraint` registered with the evaluator: its function RPN, the
per-variable Jacobian RPNs (`std::map<Var*, vector<int>>`, kept as an
association list in the map's key order, keys being variable identities),
and the leaf-value table. -/
structure SimCon where
  fn_rpn : RPN
  jac_rpn : List (ℕ × RPN)
  leaves : List ℚ

/-- An `IfElseConstraint`: per-branch condition and function RPNs and,
per variable, the per-branch Jacobian RPNs. -/
structure SimIfCon where
  condition_rpn : List RPN
  fn_rpn : List RPN
  jac_rpn : List (ℕ × List RPN)
  leaves : List ℚ

/-- The tables `set_structure` derives (the `stack` buffer and
`max_rpn_size` are not modeled: the list-based stack needs no
preallocation). -/
structure EvStructure where
  col_ndx : List ℕ
  row_nnz : List ℕ
  fn_rpn : List RPN
  leaves : List (List ℚ)
  n_conditions : List ℕ
  jac_rpn : List RPN
  if_else_condition_rpn : List RPN
  if_else_fn_rpn : List RPN
  if_else_jac_rpn : List RPN
  deriving DecidableEq

/-- The `Evaluator`: the registered sets (in their iteration order) and
the derived structure when `is_structure_set` (`none` = flag false). -/
structure SimEvaluator where
  varOrder : List ℕ
  cons : List SimCon
  ifcons : List SimIfCon
  structure? : Option EvStructure

/-- A variable's `index`, assigned by `set_structure` as its position in
the `var_set` iteration order. -/
def varIndexOf (order : List ℕ) (v : ℕ) : ℕ := order.indexOf v

/-- The per-branch flattening of an `IfElseConstraint`'s Jacobian
programs: for each branch `i`, the `i`-th program of every variable in
map order (branch-major layout). -/
def ifElseJacFlat (c : SimIfCon) : List RPN :=
  (List.range c.condition_rpn.length).flatMap
    (fun i => c.jac_rpn.map (fun p => p.2.getD i []))

/-- The throwing check of `set_structure`: inside the loop over branches
(`i < n_conditions`), every per-variable program list must have exactly
`n_conditions` entries; with zero branches the loop body never runs and
nothing is checked. -/
def checkIfCons : List SimIfCon → Except CppErr Unit
  | [] => .ok ()
  | c :: rest =>
      if 0 < c.condition_rpn.length ∧
          c.jac_rpn.any (fun p => p.2.length ≠ c.condition_rpn.length) then
        .error (.structureErr
          "The number of vectors in jac_rpn must be equal to the number of conditions for an IfElseConstraint.")
      else checkIfCons rest

/-- The tables `set_structure` builds: `row_nnz` starts at 0 and adds
each constraint's `jac_rpn.size()` (plain constraints first, then
if-else constraints); `col_ndx` collects each Jacobian variable's
assigned index in map order; the RPN tables are flat copies. -/
def buildStructure (ev : SimEvaluator) : EvStructure :=
  { col_ndx :=
      (ev.cons.map (fun c => c.jac_rpn.map (fun p => varIndexOf ev.varOrder p.1))).flatten
        ++ (ev.ifcons.map (fun c => c.jac_rpn.map (fun p => varIndexOf ev.varOrder p.1))).flatten
    row_nnz :=
      List.scanl (· + ·) 0
        (ev.cons.map (fun c => c.jac_rpn.length)
          ++ ev.ifcons.map (fun c => c.jac_rpn.length))
    fn_rpn := ev.cons.map SimCon.fn_rpn
    leaves := ev.cons.map SimCon.leaves ++ ev.ifcons.map SimIfCon.leaves
    n_conditions := ev.ifcons.map (fun c => c.condition_rpn.length)
    jac_rpn := (ev.cons.map (fun c => c.jac_rpn.map Prod.snd)).flatten
    if_else_condition_rpn := (ev.ifcons.map SimIfCon.condition_rpn).flatten
    if_else_fn_rpn :=
      (ev.ifcons.map (fun c =>
        (List.range c.condition_rpn.length).map (fun i => c.fn_rpn.getD i []))).flatten
    if_else_jac_rpn := (ev.ifcons.map ifElseJacFlat).flatten }

/-- `Evaluator::set_structure` (modeled all-or-nothing: the C++ partial
state left behind by a throw is not observable through the operations
the claims quantify over). -/
def set_structure (ev : SimEvaluator) : Except CppErr SimEvaluator :=
  (checkIfCons ev.ifcons).map (fun _ => { ev with structure? := some (buildStructure ev) })

/-- `Evaluator::remove_structure`: clear `is_structure_set`. -/
def remove_structure (ev : SimEvaluator) : SimEvaluator :=
  { ev with structure? := none }

/-- The branch scan of `evaluate` / `evaluate_csr_jacobian` over one
if-else constraint's condition programs: the first branch whose
condition RPN is empty or evaluates to 1 is selected; evaluation errors
propagate (`some i` = branch `i` fires, `none` = the scan falls off this
constraint's block, which in C++ runs into the next constraint's
programs — undefined behaviour). -/
def findBranch (ops : TransOps) (leaves : List ℚ) : List RPN → Except CppErr (Option ℕ)
  | [] => .ok none
  | c :: rest =>
      if c.length = 0 then .ok (some 0)
      else do
        let v ← _evaluate ops c leaves
        if v = 1 then .ok (some 0)
        else (findBranch ops leaves rest).map (Option.map (· + 1))

/-- The if-else half of `Evaluator::evaluate`: one group of
`n_conditions[c]` condition/function programs per constraint
(`condition_ndx += n_conditions - i` on selection ≡ dropping the rest of
the group). -/
def fnIfPart (ops : TransOps) :
    List ℕ → List RPN → List RPN → List (List ℚ) → Except CppErr (List ℚ)
  | [], _, _, _ => .ok []
  | ncond :: rest, condProgs, fnProgs, leaves => do
      match ← findBranch ops (leaves.headD []) (condProgs.take ncond) with
      | none => .error (.runtimeErr "branch scan ran past the constraint (undefined behaviour)")
      | some i => do
          let v ← _evaluate ops ((fnProgs.take ncond).getD i []) (leaves.headD [])
          let tail ← fnIfPart ops rest (condProgs.drop ncond) (fnProgs.drop ncond)
            leaves.tail
          .ok (v :: tail)

/-- `Evaluator::evaluate(array_out)`: fail when the structure is not
set; otherwise run every plain constraint's `fn_rpn`, then every
if-else constraint's selected branch. -/
def evaluate (ops : TransOps) (ev : SimEvaluator) : Except CppErr (List ℚ) :=
  match ev.structure? with
  | none => .error (.structureErr
      "Cannot call evaluate() if the structure is not set. Please call set_structure() first.")
  | some st => do
      let v1 ← (st.fn_rpn.zip st.leaves).mapM (fun p => _evaluate ops p.1 p.2)
      let v2 ← fnIfPart ops st.n_conditions st.if_else_condition_rpn st.if_else_fn_rpn
        (st.leaves.drop st.fn_rpn.length)
      .ok (v1 ++ v2)

/-- The plain-constraint half of `evaluate_csr_jacobian`: for
constraint `i`, evaluate its `nnz = row_nnz[i+1] - row_nnz[i]` Jacobian
programs against its leaf table (`nnz_ndx` advances ≡ dropping the
consumed programs). -/
def jacPlainPart (ops : TransOps) :
    List ℕ → List RPN → List (List ℚ) → Except CppErr (List ℚ)
  | [], _, _ => .ok []
  | nnz :: rest, progs, leaves => do
      let here ← (progs.take nnz).mapM (fun p => _evaluate ops p (leaves.headD []))
      let tail ← jacPlainPart ops rest (progs.drop nnz) leaves.tail
      .ok (here ++ tail)

/-- The if-else half of `evaluate_csr_jacobian`: per constraint, scan
for the active branch (`jac_ndx += nnz` per rejected branch), evaluate
that branch's `nnz` programs, then skip the remaining branches
(`jac_ndx += (n_conditions - i - 1) * nnz`), which together consume the
constraint's `n_conditions * nnz` program block. -/
def jacIfPart (ops : TransOps) :
    List (ℕ × ℕ) → List RPN → List RPN → List (List ℚ) → Except CppErr (List ℚ)
  | [], _, _, _ => .ok []
  | (nnz, ncond) :: rest, condProgs, jacProgs, leaves => do
      match ← findBranch ops (leaves.headD []) (condProgs.take ncond) with
      | none => .error (.runtimeErr "branch scan ran past the constraint (undefined behaviour)")
      | some i => do
          let here ← ((jacProgs.drop (i * nnz)).take nnz).mapM
            (fun p => _evaluate ops p (leaves.headD []))
          let tail ← jacIfPart ops rest (condProgs.drop ncond)
            (jacProgs.drop (ncond * nnz)) leaves.tail
          .ok (here ++ tail)

/-- Successive differences `row_nnz[i+1] - row_nnz[i]`. -/
def rowDiffs : List ℕ → List ℕ
  | a :: b :: rest => (b - a) :: rowDiffs (b :: rest)
  | _ => []

/-- `Evaluator::evaluate_csr_jacobian(values, col_ndx, row_nnz)`: fail
when the structure is not set; otherwise return the derivative values
(plain constraints first, then the active branch of each if-else
constraint), the stored column indices, and the stored `row_nnz`
(whose entry 0 is written as the literal 0). -/
def evaluate_csr_jacobian (ops : TransOps) (ev : SimEvaluator) :
    Except CppErr (List ℚ × List ℕ × List ℕ) :=
  match ev.structure? with
  | none => .error (.structureErr
      "Cannot call evaluate_csr_jacobian() if the structure is not set. Please call set_structure() first.")
  | some st => do
      let counts := rowDiffs st.row_nnz
      let v1 ← jacPlainPart ops (counts.take ev.cons.length) st.jac_rpn
        (st.leaves.take ev.cons.length)
      let v2 ← jacIfPart ops ((counts.drop ev.cons.length).zip st.n_conditions)
        st.if_else_condition_rpn st.if_else_jac_rpn (st.leaves.drop ev.cons.length)
      .ok (v1 ++ v2, st.col_ndx, st.row_nnz)

end WntrSim

namespace WntrSim

theorem stepRPN_ok_of_ge (ops : TransOps) (values : List ℚ) (s : List ℚ)
    (ndx : Int) (h : ATAN ≤ ndx) :
    ∃ s', stepRPN ops values s ndx = .ok s' := by
  by_cases h0 : 0 ≤ ndx
  · unfold stepRPN
    rw [if_pos h0]
    exact ⟨_, rfl⟩
  · have h1 : -18 ≤ ndx := by simpa [ATAN] using h
    have h2 : ndx ≤ -1 := by omega
    interval_cases ndx <;> exact ⟨_, rfl⟩

theorem stepRPN_unrecognized (ops : TransOps) (values : List ℚ) (s : List ℚ)
    (ndx : Int) (h : ndx < ATAN) :
    stepRPN ops values s ndx = .error (.runtimeErr "Operation not recognized") := by
  have h' : ndx < -18 := by simpa [ATAN] using h
  unfold stepRPN ADD SUB MUL DIV POW ABS SIGN IF_ELSE INEQUALITY EXP LOG
    NEGATION SIN COS TAN ASIN ACOS ATAN
  repeat rw [if_neg (by omega)]

theorem stepRPN_error_eq (ops : TransOps) (values : List ℚ) (s : List ℚ)
    (ndx : Int) (e : CppErr)
    (h : stepRPN ops values s ndx = .error e) :
    e = .runtimeErr "Operation not recognized" := by
  by_cases hge : ATAN ≤ ndx
  · obtain ⟨s', hs'⟩ := stepRPN_ok_of_ge ops values s ndx hge
    rw [hs'] at h
    exact Except.noConfusion h
  · have hlt : ndx < ATAN := by omega
    rw [stepRPN_unrecognized ops values s ndx hlt] at h
    injection h with h2
    exact h2.symm

theorem foldlM_bad_opcode (ops : TransOps) (values : List ℚ) :
    ∀ (rpn : RPN) (s : List ℚ), (∃ t ∈ rpn, t < ATAN) →
      rpn.foldlM (fun st ndx => stepRPN ops values st ndx) s =
        .error (.runtimeErr "Operation not recognized") := by
  intro rpn
  induction rpn with
  | nil =>
      rintro s ⟨t, ht, _⟩
      cases ht
  | cons r rest ih =>
      rintro s ⟨t, ht, hlt⟩
      rw [List.foldlM_cons]
      cases hstep : stepRPN ops values s r with
      | error e =>
          have he := stepRPN_error_eq ops values s r e hstep
          subst he
          rfl
      | ok s' =>
          rcases List.mem_cons.mp ht with hre | hre
          · rw [← hre] at hstep
            rw [stepRPN_unrecognized ops values s t hlt] at hstep
            exact Except.noConfusion hstep
          · show ((Except.ok s' : Except CppErr (List ℚ)) >>= fun init =>
              rest.foldlM (fun st ndx => stepRPN ops values st ndx) init) = _
            exact ih s' ⟨t, hre, hlt⟩

theorem _evaluate_bad_opcode (ops : TransOps) (values : List ℚ) (rpn : RPN)
    (t : Int) (ht : t ∈ rpn) (hlt : t < ATAN) :
    _evaluate ops rpn values = .error (.runtimeErr "Operation not recognized") := by
  unfold _evaluate
  rw [foldlM_bad_opcode ops values rpn [] ⟨t, ht, hlt⟩]
  rfl

theorem checkIfCons_error (l : List SimIfCon)
    (h : ∃ c ∈ l, 0 < c.condition_rpn.length ∧
      ∃ p ∈ c.jac_rpn, p.2.length ≠ c.condition_rpn.length) :
    checkIfCons l = .error (.structureErr
      "The number of vectors in jac_rpn must be equal to the number of conditions for an IfElseConstraint.") := by
  induction l with
  | nil =>
      obtain ⟨c, hc, _⟩ := h
      cases hc
  | cons c rest ih =>
      by_cases hg : 0 < c.condition_rpn.length ∧
          c.jac_rpn.any (fun p => p.2.length ≠ c.condition_rpn.length)
      · unfold checkIfCons
        rw [if_pos hg]
      · unfold checkIfCons
        rw [if_neg hg]
        apply ih
        obtain ⟨d, hd, hdl, p, hp, hplen⟩ := h
        rcases List.mem_cons.mp hd with hdc | hdc
        · subst hdc
          exact absurd ⟨hdl, List.any_eq_true.mpr ⟨p, hp, by
            simpa using hplen⟩⟩ hg
        · exact ⟨d, hdc, hdl, p, hp, hplen⟩

end WntrSim

namespace WntrSim

/-- **C10 (counterexample).**  The structure error thrown by `evaluate`
before `set_structure` carries the full sentence
"Cannot call evaluate() if the structure is not set. Please call
set_structure() first." — not the message "structure not set" (which is
not even a substring: the code says "structure is not set"). -/
theorem evaluator_error_message_counterexample :
    evaluate ⟨fun _ _ => 0, fun _ => 0, fun _ => 0, fun _ => 0, fun _ => 0,
        fun _ => 0, fun _ => 0, fun _ => 0, fun _ => 0⟩
      ⟨[], [], [], none⟩ = .error (.structureErr
        "Cannot call evaluate() if the structure is not set. Please call set_structure() first.") ∧
      "Cannot call evaluate() if the structure is not set. Please call set_structure() first." ≠
        "structure not set" := by
  exact ⟨rfl, by decide⟩

/-- **C10 (amended).**  The compiled evaluator raises exactly these fatal
errors: `evaluate` and `evaluate_csr_jacobian` fail with a tagged
structure error — whose message states that the structure is not set and
directs the caller to `set_structure()` — when called before
`set_structure` or after the structure has been released, committing no
output; `set_structure` fails with a structure error when an
`IfElseConstraint` with at least one registered branch has a
per-variable list of Jacobian programs whose length differs from its
number of conditions; and executing an unrecognized (negative, below
`ATAN = -18`) opcode in an RPN program fails fatally with
`std::runtime_error("Operation not recognized")`. -/
theorem compiled_evaluator_fatal_errors (ops : TransOps) (ev : SimEvaluator) :
    (ev.structure? = none →
      evaluate ops ev = .error (.structureErr
        "Cannot call evaluate() if the structure is not set. Please call set_structure() first.") ∧
      evaluate_csr_jacobian ops ev = .error (.structureErr
        "Cannot call evaluate_csr_jacobian() if the structure is not set. Please call set_structure() first.")) ∧
    (evaluate ops (remove_structure ev) = .error (.structureErr
      "Cannot call evaluate() if the structure is not set. Please call set_structure() first.")) ∧
    ((∃ c ∈ ev.ifcons, 0 < c.condition_rpn.length ∧
        ∃ p ∈ c.jac_rpn, p.2.length ≠ c.condition_rpn.length) →
      set_structure ev = .error (.structureErr
        "The number of vectors in jac_rpn must be equal to the number of conditions for an IfElseConstraint.")) ∧
    (∀ (rpn : RPN) (values : List ℚ) (t : Int), t ∈ rpn → t < ATAN →
      _evaluate ops rpn values = .error (.runtimeErr "Operation not recognized")) := by
  refine ⟨?_, ?_, ?_, ?_⟩
  · intro h
    constructor
    · unfold evaluate
      rw [h]
    · unfold evaluate_csr_jacobian
      rw [h]
  · rfl
  · intro h
    unfold set_structure
    rw [checkIfCons_error ev.ifcons h]
    rfl
  · intro rpn values t ht hlt
    exact _evaluate_bad_opcode ops values rpn t ht hlt

/-- Witness for the amended C10: a one-constraint evaluator whose
`IfElseConstraint` has one condition but a two-program Jacobian list for
its variable makes `set_structure` fail, and the opcode `-19` makes
`_evaluate` fail. -/
theorem compiled_evaluator_fatal_errors_witness :
    set_structure ⟨[0], [], [⟨[[]], [[0]], [(0, [[0], [0]])], [1]⟩], none⟩ =
        .error (.structureErr
          "The number of vectors in jac_rpn must be equal to the number of conditions for an IfElseConstraint.") ∧
      _evaluate ⟨fun _ _ => 0, fun _ => 0, fun _ => 0, fun _ => 0, fun _ => 0,
          fun _ => 0, fun _ => 0, fun _ => 0, fun _ => 0⟩ [-19] [] =
        .error (.runtimeErr "Operation not recognized") := by
  have h := compiled_evaluator_fatal_errors
    ⟨fun _ _ => 0, fun _ => 0, fun _ => 0, fun _ => 0, fun _ => 0,
      fun _ => 0, fun _ => 0, fun _ => 0, fun _ => 0⟩
    ⟨[0], [], [⟨[[]], [[0]], [(0, [[0], [0]])], [1]⟩], none⟩
  constructor
  · exact h.2.2.1 ⟨⟨[[]], [[0]], [(0, [[0], [0]])], [1]⟩,
      List.mem_singleton_self _, by decide, (0, [[0], [0]]),
      List.mem_singleton_self _, by decide⟩
  · exact h.2.2.2 [-19] [] (-19) (List.mem_singleton_self _) (by decide)

end WntrSim

namespace WntrSim

/-- The value `_evaluate` computes when it succeeds (its return value on
the non-throwing path). -/
def evalQ (ops : TransOps) (rpn : RPN) (values : List ℚ) : ℚ :=
  ((_evaluate ops rpn values).toOption).getD 0

/-- The branch index the condition scan over an if-else constraint's own
condition programs selects when the scan succeeds. -/
def selBranch (ops : TransOps) (c : SimIfCon) : ℕ :=
  (((findBranch ops c.leaves c.condition_rpn).toOption).getD none).getD 0

theorem scanl_add_getD_zero (b : ℕ) (l : List ℕ) :
    (List.scanl (· + ·) b l).getD 0 0 = b := by
  cases l <;> rfl

theorem scanl_add_getD_succ (l : List ℕ) :
    ∀ (b i : ℕ), i < l.length →
      (List.scanl (· + ·) b l).getD (i + 1) 0 =
        (List.scanl (· + ·) b l).getD i 0 + l.getD i 0 := by
  induction l with
  | nil =>
      intro b i hi
      exact absurd hi (Nat.not_lt_zero i)
  | cons a t ih =>
      intro b i hi
      rw [List.scanl_cons]
      simp only [List.singleton_append]
      cases i with
      | zero =>
          simp only [List.getD_cons_succ, List.getD_cons_zero]
          rw [scanl_add_getD_zero]
      | succ j =>
          simp only [List.getD_cons_succ]
          have hj : j < t.length := by
            simp only [List.length_cons] at hi
            omega
          exact ih (b + a) j hj

theorem scanl_add_getD_length (l : List ℕ) :
    ∀ b : ℕ, (List.scanl (· + ·) b l).getD l.length 0 = b + l.sum := by
  induction l with
  | nil => intro b; rfl
  | cons a t ih =>
      intro b
      rw [List.scanl_cons]
      simp only [List.singleton_append, List.length_cons, List.getD_cons_succ,
        List.sum_cons]
      rw [ih (b + a)]
      omega

theorem scanl_add_head (b : ℕ) (l : List ℕ) :
    ∃ T, List.scanl (· + ·) b l = b :: T := by
  cases l <;> exact ⟨_, rfl⟩

theorem rowDiffs_scanl (l : List ℕ) :
    ∀ b : ℕ, rowDiffs (List.scanl (· + ·) b l) = l := by
  induction l with
  | nil => intro b; rfl
  | cons a t ih =>
      intro b
      obtain ⟨T, hT⟩ := scanl_add_head (b + a) t
      rw [List.scanl_cons, hT]
      simp only [rowDiffs]
      rw [← hT, ih (b + a)]
      have hb : b + a - b = a := by omega
      rw [hb]

theorem flatten_uniform_length {α : Type} (L : ℕ) :
    ∀ Ls : List (List α), (∀ l ∈ Ls, l.length = L) →
      Ls.flatten.length = Ls.length * L := by
  intro Ls
  induction Ls with
  | nil => intro _; simp
  | cons l rest ih =>
      intro h
      rw [List.flatten_cons, List.length_append,
        ih (fun x hx => h x (List.mem_cons_of_mem l hx)),
        h l (List.mem_cons_self l rest), List.length_cons, Nat.succ_mul]
      omega

theorem flatten_uniform_block {α : Type} (L : ℕ) :
    ∀ (Ls : List (List α)) (i : ℕ) (tail : List α),
      (∀ l ∈ Ls, l.length = L) → i < Ls.length →
      ((Ls.flatten ++ tail).drop (i * L)).take L = Ls.getD i [] := by
  intro Ls
  induction Ls with
  | nil =>
      intro i tail _ hi
      exact absurd hi (Nat.not_lt_zero i)
  | cons l rest ih =>
      intro i tail h hi
      cases i with
      | zero =>
          rw [Nat.zero_mul, List.drop_zero]
          simp only [List.getD_cons_zero]
          rw [List.flatten_cons, List.append_assoc,
            ← h l (List.mem_cons_self l rest)]
          exact List.take_left l _
      | succ j =>
          simp only [List.getD_cons_succ]
          rw [List.flatten_cons, List.append_assoc]
          have hmul : (j + 1) * L = l.length + j * L := by
            rw [h l (List.mem_cons_self l rest)]; ring
          rw [hmul, List.drop_append]
          have hj : j < rest.length := by
            simp only [List.length_cons] at hi
            omega
          exact ih j tail (fun x hx => h x (List.mem_cons_of_mem l hx)) hj

theorem flatten_uniform_drop {α : Type} (L : ℕ) (Ls : List (List α)) (tail : List α)
    (h : ∀ l ∈ Ls, l.length = L) :
    (Ls.flatten ++ tail).drop (Ls.length * L) = tail := by
  rw [← flatten_uniform_length L Ls h]
  exact List.drop_left _ _

theorem flatten_slice_aux {α : Type} :
    ∀ (Ls : List (List α)) (i : ℕ) (pre : List α), i < Ls.length →
      ((pre ++ Ls.flatten).drop
          ((List.scanl (· + ·) pre.length (Ls.map List.length)).getD i 0)).take
        ((Ls.map List.length).getD i 0) = Ls.getD i [] := by
  intro Ls
  induction Ls with
  | nil =>
      intro i pre hi
      exact absurd hi (Nat.not_lt_zero i)
  | cons l rest ih =>
      intro i pre hi
      cases i with
      | zero =>
          rw [List.map_cons, scanl_add_getD_zero]
          simp only [List.getD_cons_zero]
          rw [List.flatten_cons, List.drop_left]
          exact List.take_left l rest.flatten
      | succ j =>
          rw [List.map_cons, List.scanl_cons]
          simp only [List.getD_cons_succ]
          rw [List.flatten_cons, ← List.append_assoc]
          have hlen : pre.length + l.length = (pre ++ l).length :=
            (List.length_append pre l).symm
          rw [hlen]
          have hj : j < rest.length := by
            simp only [List.length_cons] at hi
            omega
          exact ih j (pre ++ l) hj

theorem flatten_slice {α : Type} (Ls : List (List α)) (i : ℕ) (hi : i < Ls.length) :
    ((Ls.flatten.drop
        ((List.scanl (· + ·) 0 (Ls.map List.length)).getD i 0)).take
      ((Ls.map List.length).getD i 0)) = Ls.getD i [] := by
  have h := flatten_slice_aux Ls i [] hi
  simpa using h

end WntrSim

namespace WntrSim

theorem foldlM_stepRPN_ok (ops : TransOps) (values : List ℚ) :
    ∀ (rpn : RPN) (s : List ℚ), (∀ t ∈ rpn, ATAN ≤ t) →
      ∃ s', rpn.foldlM (fun st ndx => stepRPN ops values st ndx) s = .ok s' := by
  intro rpn
  induction rpn with
  | nil => intro s _; exact ⟨s, rfl⟩
  | cons r rest ih =>
      intro s h
      obtain ⟨s1, h1⟩ := stepRPN_ok_of_ge ops values s r (h r (List.mem_cons_self r rest))
      obtain ⟨s2, h2⟩ := ih s1 (fun t ht => h t (List.mem_cons_of_mem r ht))
      refine ⟨s2, ?_⟩
      rw [List.foldlM_cons, h1]
      exact h2

theorem _evaluate_ok (ops : TransOps) (rpn : RPN) (values : List ℚ)
    (h : ∀ t ∈ rpn, ATAN ≤ t) :
    _evaluate ops rpn values = .ok (evalQ ops rpn values) := by
  obtain ⟨s', hs⟩ := foldlM_stepRPN_ok ops values rpn [] h
  have he : _evaluate ops rpn values = .ok (pop s').1 := by
    unfold _evaluate
    rw [hs]
    rfl
  rw [he]
  unfold evalQ
  rw [he]
  rfl

theorem mapM_evaluate_ok {α : Type} (ops : TransOps) (leaves : List ℚ) (f : α → RPN) :
    ∀ l : List α, (∀ a ∈ l, ∀ t ∈ f a, ATAN ≤ t) →
      (l.map f).mapM (fun p => _evaluate ops p leaves) =
        .ok (l.map (fun a => evalQ ops (f a) leaves)) := by
  intro l
  induction l with
  | nil => intro _; rfl
  | cons a rest ih =>
      intro h
      simp only [List.map_cons, List.mapM_cons]
      rw [_evaluate_ok ops (f a) leaves (h a (List.mem_cons_self a rest)),
        ih (fun x hx => h x (List.mem_cons_of_mem a hx))]
      rfl

theorem findBranch_lt (ops : TransOps) (leaves : List ℚ) :
    ∀ (l : List RPN) (i : ℕ), findBranch ops leaves l = .ok (some i) → i < l.length := by
  intro l
  induction l with
  | nil =>
      intro i h
      injection h with h'
      exact Option.noConfusion h'
  | cons c rest ih =>
      intro i h
      simp only [findBranch] at h
      by_cases hc : c.length = 0
      · rw [if_pos hc] at h
        injection h with h1
        injection h1 with h2
        rw [← h2]
        simp
      · rw [if_neg hc] at h
        cases hv : _evaluate ops c leaves with
        | error e =>
            rw [hv] at h
            exact Except.noConfusion h
        | ok v =>
            rw [hv] at h
            have h2 : (if v = 1 then (Except.ok (some 0) : Except CppErr (Option ℕ))
                else (findBranch ops leaves rest).map (Option.map (· + 1))) = .ok (some i) := h
            by_cases hv1 : v = 1
            · rw [if_pos hv1] at h2
              injection h2 with h3
              injection h3 with h4
              rw [← h4]
              simp
            · rw [if_neg hv1] at h2
              cases hfb : findBranch ops leaves rest with
              | error e =>
                  rw [hfb] at h2
                  exact Except.noConfusion h2
              | ok o =>
                  rw [hfb] at h2
                  cases o with
                  | none =>
                      have h3 : (Except.ok (none : Option ℕ) : Except CppErr (Option ℕ)) =
                          .ok (some i) := h2
                      injection h3 with h4
                      exact Option.noConfusion h4
                  | some j =>
                      have h3 : (Except.ok (some (j + 1)) : Except CppErr (Option ℕ)) =
                          .ok (some i) := h2
                      injection h3 with h4
                      injection h4 with h5
                      have hjl := ih j hfb
                      simp only [List.length_cons]
                      omega

theorem jacPlainPart_ok (ops : TransOps) :
    ∀ cs : List SimCon,
      (∀ c ∈ cs, ∀ p ∈ c.jac_rpn, ∀ t ∈ p.2, ATAN ≤ t) →
      jacPlainPart ops (cs.map (fun c => c.jac_rpn.length))
          ((cs.map (fun c => c.jac_rpn.map Prod.snd)).flatten)
          (cs.map SimCon.leaves) =
        .ok ((cs.map (fun c => c.jac_rpn.map (fun p => evalQ ops p.2 c.leaves))).flatten) := by
  intro cs
  induction cs with
  | nil => intro _; rfl
  | cons c rest ih =>
      intro h
      simp only [List.map_cons, List.flatten_cons, jacPlainPart, List.headD_cons,
        List.tail_cons]
      have hx : (c.jac_rpn.map Prod.snd).length = c.jac_rpn.length :=
        List.length_map c.jac_rpn Prod.snd
      rw [← hx, List.take_left, List.drop_left]
      rw [mapM_evaluate_ok ops c.leaves Prod.snd c.jac_rpn
        (h c (List.mem_cons_self c rest))]
      rw [ih (fun x hx' => h x (List.mem_cons_of_mem c hx'))]
      rfl

end WntrSim

namespace WntrSim

theorem jacIfPart_ok (ops : TransOps) :
    ∀ cs : List SimIfCon,
      (∀ c ∈ cs, ∀ p ∈ c.jac_rpn, ∀ r ∈ p.2, ∀ t ∈ r, ATAN ≤ t) →
      (∀ c ∈ cs, ∃ i, findBranch ops c.leaves c.condition_rpn = .ok (some i)) →
      jacIfPart ops (cs.map (fun c => (c.jac_rpn.length, c.condition_rpn.length)))
          ((cs.map SimIfCon.condition_rpn).flatten)
          ((cs.map ifElseJacFlat).flatten)
          (cs.map SimIfCon.leaves) =
        .ok ((cs.map (fun c =>
          c.jac_rpn.map (fun p => evalQ ops (p.2.getD (selBranch ops c) []) c.leaves))).flatten) := by
  intro cs
  induction cs with
  | nil => intro _ _; rfl
  | cons c rest ih =>
      intro hv hf
      obtain ⟨i, hfb⟩ := hf c (List.mem_cons_self c rest)
      have hil : i < c.condition_rpn.length :=
        findBranch_lt ops c.leaves c.condition_rpn i hfb
      have hsel : selBranch ops c = i := by
        unfold selBranch
        rw [hfb]
        rfl
      have hflat : ifElseJacFlat c =
          ((List.range c.condition_rpn.length).map
            (fun j => c.jac_rpn.map (fun p => p.2.getD j []))).flatten := by
        unfold ifElseJacFlat
        exact List.flatMap_def _ _
      have hblockslen : ∀ l ∈ (List.range c.condition_rpn.length).map
          (fun j => c.jac_rpn.map (fun p => p.2.getD j [])),
          l.length = c.jac_rpn.length := by
        intro l hl
        obtain ⟨j, _, rfl⟩ := List.mem_map.mp hl
        exact List.length_map _ _
      have hblock : ((ifElseJacFlat c ++ (rest.map ifElseJacFlat).flatten).drop
            (i * c.jac_rpn.length)).take c.jac_rpn.length =
          c.jac_rpn.map (fun p => p.2.getD i []) := by
        rw [hflat]
        rw [flatten_uniform_block c.jac_rpn.length _ i _ hblockslen
          (by simpa using hil)]
        rw [List.getD_eq_getElem _ _ (by simpa using hil)]
        rw [List.getElem_map, List.getElem_range]
      have hdropJ : (ifElseJacFlat c ++ (rest.map ifElseJacFlat).flatten).drop
            (c.condition_rpn.length * c.jac_rpn.length) =
          (rest.map ifElseJacFlat).flatten := by
        rw [hflat]
        have hgen := flatten_uniform_drop c.jac_rpn.length
          ((List.range c.condition_rpn.length).map
            (fun j => c.jac_rpn.map (fun p => p.2.getD j [])))
          ((rest.map ifElseJacFlat).flatten) hblockslen
        simpa using hgen
      have hvblock : ∀ p ∈ c.jac_rpn, ∀ t ∈ p.2.getD i [], ATAN ≤ t := by
        intro p hp t ht
        by_cases hlen : i < p.2.length
        · rw [List.getD_eq_getElem _ _ hlen] at ht
          exact hv c (List.mem_cons_self c rest) p hp _ (List.getElem_mem hlen) t ht
        · rw [List.getD_eq_default _ _ (Nat.le_of_not_lt hlen)] at ht
          cases ht
      have hstep : jacIfPart ops
            ((c.jac_rpn.length, c.condition_rpn.length) ::
              rest.map (fun d => (d.jac_rpn.length, d.condition_rpn.length)))
            (SimIfCon.condition_rpn c ++ (rest.map SimIfCon.condition_rpn).flatten)
            (ifElseJacFlat c ++ (rest.map ifElseJacFlat).flatten)
            (SimIfCon.leaves c :: rest.map SimIfCon.leaves) =
          ((((ifElseJacFlat c ++ (rest.map ifElseJacFlat).flatten).drop
              (i * c.jac_rpn.length)).take c.jac_rpn.length).mapM
            (fun p => _evaluate ops p (SimIfCon.leaves c)) >>= fun here =>
            jacIfPart ops (rest.map (fun d => (d.jac_rpn.length, d.condition_rpn.length)))
              ((SimIfCon.condition_rpn c ++
                (rest.map SimIfCon.condition_rpn).flatten).drop c.condition_rpn.length)
              ((ifElseJacFlat c ++ (rest.map ifElseJacFlat).flatten).drop
                (c.condition_rpn.length * c.jac_rpn.length))
              (rest.map SimIfCon.leaves) >>= fun tail =>
            Except.ok (here ++ tail)) := by
        simp only [jacIfPart, List.headD_cons, List.tail_cons]
        rw [List.take_left, hfb]
        rfl
      simp only [List.map_cons, List.flatten_cons]
      rw [hstep, hblock, hdropJ, List.drop_left,
        mapM_evaluate_ok ops c.leaves (fun p => p.2.getD i []) c.jac_rpn hvblock,
        ih (fun x hx => hv x (List.mem_cons_of_mem c hx))
          (fun x hx => hf x (List.mem_cons_of_mem c hx)),
        hsel]
      rfl

end WntrSim

namespace WntrSim

/-- **C9.**  The CSR law of the compiled evaluator: after `set_structure`
with `m` constraints (plain constraints first, then if-else constraints),
`row_nnz` has `m + 1` entries with `row_nnz[0] = 0` and `row_nnz[m]`
equal to the total number of stored Jacobian entries (`col_ndx`'s
length); for every constraint `i`, `row_nnz[i+1] - row_nnz[i]` equals
the number of variables with a registered per-variable Jacobian program
for that constraint, and — whenever every Jacobian program carries only
recognized opcodes and every if-else constraint has a firing branch —
`evaluate_csr_jacobian` succeeds and writes exactly those variables'
column indices into `col_ndx` positions `row_nnz[i]` through
`row_nnz[i+1] - 1`, with the corresponding derivative values (for an
if-else constraint, of the selected branch) in the same per-constraint
map order. -/
theorem csr_jacobian_law (ops : TransOps) (ev ev' : SimEvaluator)
    (st : EvStructure) (counts : List ℕ) (m : ℕ)
    (colGroups : List (List ℕ)) (valGroups : List (List ℚ))
    (hset : set_structure ev = .ok ev')
    (hst : ev'.structure? = some st)
    (hcounts : counts = ev.cons.map (fun c => c.jac_rpn.length)
      ++ ev.ifcons.map (fun c => c.jac_rpn.length))
    (hm : m = ev.cons.length + ev.ifcons.length)
    (hcols : colGroups =
      ev.cons.map (fun c => c.jac_rpn.map (fun p => varIndexOf ev.varOrder p.1))
        ++ ev.ifcons.map (fun c => c.jac_rpn.map (fun p => varIndexOf ev.varOrder p.1)))
    (hvals : valGroups =
      ev.cons.map (fun c => c.jac_rpn.map (fun p => evalQ ops p.2 c.leaves))
        ++ ev.ifcons.map (fun c =>
          c.jac_rpn.map (fun p => evalQ ops (p.2.getD (selBranch ops c) []) c.leaves)))
    (hvp : ∀ c ∈ ev.cons, ∀ p ∈ c.jac_rpn, ∀ t ∈ p.2, ATAN ≤ t)
    (hvj : ∀ c ∈ ev.ifcons, ∀ p ∈ c.jac_rpn, ∀ r ∈ p.2, ∀ t ∈ r, ATAN ≤ t)
    (hfire : ∀ c ∈ ev.ifcons, ∃ i, findBranch ops c.leaves c.condition_rpn = .ok (some i)) :
    st.row_nnz.length = m + 1 ∧
    st.row_nnz.getD 0 0 = 0 ∧
    st.row_nnz.getD m 0 = st.col_ndx.length ∧
    (∀ i, i < m → st.row_nnz.getD (i + 1) 0 - st.row_nnz.getD i 0 = counts.getD i 0) ∧
    st.col_ndx = colGroups.flatten ∧
    evaluate_csr_jacobian ops ev' = .ok (valGroups.flatten, st.col_ndx, st.row_nnz) ∧
    (∀ i, i < m →
      (st.col_ndx.drop (st.row_nnz.getD i 0)).take (counts.getD i 0) =
        colGroups.getD i [] ∧
      (valGroups.flatten.drop (st.row_nnz.getD i 0)).take (counts.getD i 0) =
        valGroups.getD i []) := by
  have hev' : ev' = { ev with structure? := some (buildStructure ev) } := by
    unfold set_structure at hset
    cases hc : checkIfCons ev.ifcons with
    | error e =>
        rw [hc] at hset
        exact Except.noConfusion hset
    | ok u =>
        rw [hc] at hset
        have h2 : Except.ok { ev with structure? := some (buildStructure ev) } =
            .ok ev' := hset
        injection h2 with h3
        exact h3.symm
  subst hev'
  have h4 : some (buildStructure ev) = some st := hst
  injection h4 with h5
  subst h5
  subst hcounts
  subst hm
  subst hcols
  subst hvals
  have hrow : (buildStructure ev).row_nnz =
      List.scanl (· + ·) 0 (ev.cons.map (fun c => c.jac_rpn.length)
        ++ ev.ifcons.map (fun c => c.jac_rpn.length)) := rfl
  have hcolx : (buildStructure ev).col_ndx =
      (ev.cons.map (fun c => c.jac_rpn.map (fun p => varIndexOf ev.varOrder p.1))).flatten
        ++ (ev.ifcons.map (fun c =>
          c.jac_rpn.map (fun p => varIndexOf ev.varOrder p.1))).flatten := rfl
  have hclen : (ev.cons.map (fun c => c.jac_rpn.length)
      ++ ev.ifcons.map (fun c => c.jac_rpn.length)).length =
      ev.cons.length + ev.ifcons.length := by
    simp
  refine ⟨?_, ?_, ?_, ?_, ?_, ?_, ?_⟩
  · rw [hrow, List.length_scanl, hclen]
  · rw [hrow]
    exact scanl_add_getD_zero 0 _
  · rw [hrow, hcolx, ← hclen, scanl_add_getD_length]
    simp [List.sum_append, List.length_append, List.length_flatten, List.map_map,
      Function.comp_def, List.length_map]
  · intro i hi
    have hsucc := scanl_add_getD_succ
      (ev.cons.map (fun c => c.jac_rpn.length) ++ ev.ifcons.map (fun c => c.jac_rpn.length))
      0 i (by rw [hclen]; exact hi)
    rw [hrow]
    omega
  · rw [hcolx, List.flatten_append]
  · have hcsr : evaluate_csr_jacobian ops { ev with structure? := some (buildStructure ev) } =
        (jacPlainPart ops ((rowDiffs (buildStructure ev).row_nnz).take ev.cons.length)
            (buildStructure ev).jac_rpn ((buildStructure ev).leaves.take ev.cons.length) >>=
          fun v1 =>
            jacIfPart ops (((rowDiffs (buildStructure ev).row_nnz).drop ev.cons.length).zip
                (buildStructure ev).n_conditions)
              (buildStructure ev).if_else_condition_rpn (buildStructure ev).if_else_jac_rpn
              ((buildStructure ev).leaves.drop ev.cons.length) >>=
          fun v2 =>
            Except.ok (v1 ++ v2, (buildStructure ev).col_ndx,
              (buildStructure ev).row_nnz)) := rfl
    rw [hcsr]
    have hrd : rowDiffs (buildStructure ev).row_nnz =
        ev.cons.map (fun c => c.jac_rpn.length)
          ++ ev.ifcons.map (fun c => c.jac_rpn.length) := by
      rw [hrow]
      exact rowDiffs_scanl _ 0
    rw [hrd]
    have htakeC : (ev.cons.map (fun c => c.jac_rpn.length)
        ++ ev.ifcons.map (fun c => c.jac_rpn.length)).take ev.cons.length =
        ev.cons.map (fun c => c.jac_rpn.length) := by
      rw [show ev.cons.length = (ev.cons.map (fun c => c.jac_rpn.length)).length from
        (List.length_map _ _).symm]
      exact List.take_left _ _
    have hdropC : (ev.cons.map (fun c => c.jac_rpn.length)
        ++ ev.ifcons.map (fun c => c.jac_rpn.length)).drop ev.cons.length =
        ev.ifcons.map (fun c => c.jac_rpn.length) := by
      rw [show ev.cons.length = (ev.cons.map (fun c => c.jac_rpn.length)).length from
        (List.length_map _ _).symm]
      exact List.drop_left _ _
    have hleaves : (buildStructure ev).leaves =
        ev.cons.map SimCon.leaves ++ ev.ifcons.map SimIfCon.leaves := rfl
    have htakeL : (ev.cons.map SimCon.leaves ++ ev.ifcons.map SimIfCon.leaves).take
        ev.cons.length = ev.cons.map SimCon.leaves := by
      rw [show ev.cons.length = (ev.cons.map SimCon.leaves).length from
        (List.length_map _ _).symm]
      exact List.take_left _ _
    have hdropL : (ev.cons.map SimCon.leaves ++ ev.ifcons.map SimIfCon.leaves).drop
        ev.cons.length = ev.ifcons.map SimIfCon.leaves := by
      rw [show ev.cons.length = (ev.cons.map SimCon.leaves).length from
        (List.length_map _ _).symm]
      exact List.drop_left _ _
    have hjacf : (buildStructure ev).jac_rpn =
        (ev.cons.map (fun c => c.jac_rpn.map Prod.snd)).flatten := rfl
    have hncond : (buildStructure ev).n_conditions =
        ev.ifcons.map (fun c => c.condition_rpn.length) := rfl
    have hcondf : (buildStructure ev).if_else_condition_rpn =
        (ev.ifcons.map SimIfCon.condition_rpn).flatten := rfl
    have hjaciff : (buildStructure ev).if_else_jac_rpn =
        (ev.ifcons.map ifElseJacFlat).flatten := rfl
    rw [htakeC, hdropC, hleaves, htakeL, hdropL, hjacf, hncond, hcondf, hjaciff]
    rw [List.zip_map' (fun c => c.jac_rpn.length) (fun c => c.condition_rpn.length) ev.ifcons]
    rw [jacPlainPart_ok ops ev.cons hvp]
    rw [jacIfPart_ok ops ev.ifcons hvj hfire]
    rw [List.flatten_append]
    rfl
  · intro i hi
    have hlenc : ((ev.cons.map (fun c => c.jac_rpn.map (fun p => varIndexOf ev.varOrder p.1))
        ++ ev.ifcons.map (fun c =>
          c.jac_rpn.map (fun p => varIndexOf ev.varOrder p.1))).map List.length) =
        ev.cons.map (fun c => c.jac_rpn.length)
          ++ ev.ifcons.map (fun c => c.jac_rpn.length) := by
      simp [List.map_map, Function.comp_def, List.length_map]
    have hlenv : ((ev.cons.map (fun c => c.jac_rpn.map (fun p => evalQ ops p.2 c.leaves))
        ++ ev.ifcons.map (fun c =>
          c.jac_rpn.map (fun p =>
            evalQ ops (p.2.getD (selBranch ops c) []) c.leaves))).map List.length) =
        ev.cons.map (fun c => c.jac_rpn.length)
          ++ ev.ifcons.map (fun c => c.jac_rpn.length) := by
      simp [List.map_map, Function.comp_def, List.length_map]
    constructor
    · have hiA : i < (ev.cons.map (fun c =>
          c.jac_rpn.map (fun p => varIndexOf ev.varOrder p.1))
          ++ ev.ifcons.map (fun c =>
            c.jac_rpn.map (fun p => varIndexOf ev.varOrder p.1))).length := by
        simp only [List.length_append, List.length_map]
        exact hi
      have hs := flatten_slice _ i hiA
      rw [hlenc] at hs
      rw [hrow, hcolx, ← List.flatten_append]
      exact hs
    · have hiV : i < (ev.cons.map (fun c => c.jac_rpn.map (fun p => evalQ ops p.2 c.leaves))
          ++ ev.ifcons.map (fun c =>
            c.jac_rpn.map (fun p =>
              evalQ ops (p.2.getD (selBranch ops c) []) c.leaves))).length := by
        simp only [List.length_append, List.length_map]
        exact hi
      have hs := flatten_slice _ i hiV
      rw [hlenv] at hs
      rw [hrow]
      exact hs

end WntrSim

namespace WntrSim

/-- Witness for C9: an evaluator with variables `4, 7`, one plain
constraint (Jacobian programs for both variables, leaf values 2 and 3)
and one two-branch if-else constraint whose first condition evaluates to
5 (not selected) and whose second condition is empty (selected), giving
`row_nnz = [0, 2, 3]`, `col_ndx = [0, 1, 0]` and values `[2, 3, 7]`. -/
theorem csr_jacobian_law_witness :
    evaluate_csr_jacobian
        ⟨fun _ _ => 0, fun _ => 0, fun _ => 0, fun _ => 0, fun _ => 0,
          fun _ => 0, fun _ => 0, fun _ => 0, fun _ => 0⟩
        ⟨[4, 7], [⟨[0], [(4, [0]), (7, [1])], [2, 3]⟩],
          [⟨[[0], []], [[0], [1]], [(4, [[0], [1]])], [5, 7]⟩],
          some (buildStructure ⟨[4, 7], [⟨[0], [(4, [0]), (7, [1])], [2, 3]⟩],
            [⟨[[0], []], [[0], [1]], [(4, [[0], [1]])], [5, 7]⟩], none⟩)⟩ =
      .ok ([2, 3, 7], [0, 1, 0], [0, 2, 3]) := by
  have h := csr_jacobian_law
    ⟨fun _ _ => 0, fun _ => 0, fun _ => 0, fun _ => 0, fun _ => 0,
      fun _ => 0, fun _ => 0, fun _ => 0, fun _ => 0⟩
    ⟨[4, 7], [⟨[0], [(4, [0]), (7, [1])], [2, 3]⟩],
      [⟨[[0], []], [[0], [1]], [(4, [[0], [1]])], [5, 7]⟩], none⟩
    ⟨[4, 7], [⟨[0], [(4, [0]), (7, [1])], [2, 3]⟩],
      [⟨[[0], []], [[0], [1]], [(4, [[0], [1]])], [5, 7]⟩],
      some (buildStructure ⟨[4, 7], [⟨[0], [(4, [0]), (7, [1])], [2, 3]⟩],
        [⟨[[0], []], [[0], [1]], [(4, [[0], [1]])], [5, 7]⟩], none⟩)⟩
    (buildStructure ⟨[4, 7], [⟨[0], [(4, [0]), (7, [1])], [2, 3]⟩],
      [⟨[[0], []], [[0], [1]], [(4, [[0], [1]])], [5, 7]⟩], none⟩)
    [2, 1] 2 [[0, 1], [0]] [[2, 3], [7]]
    rfl rfl rfl rfl rfl rfl
    (by
      intro c hc p hp t ht
      simp only [List.mem_singleton] at hc
      subst hc
      simp at hp
      rcases hp with rfl | rfl <;>
        (simp at ht; subst ht; decide))
    (by
      intro c hc p hp r hr t ht
      simp only [List.mem_singleton] at hc
      subst hc
      simp at hp
      subst hp
      simp at hr
      rcases hr with rfl | rfl <;>
        (simp at ht; subst ht; decide))
    (by
      intro c hc
      simp only [List.mem_singleton] at hc
      subst hc
      exact ⟨1, rfl⟩)
  exact h.2.2.2.2.2.1

end WntrSim
